import Mathlib

/-!
Verification of the node-anvil library (src/index.js): an in-memory
Minecraft region/chunk/section/block model with a serializer producing
the `.mca` region-file byte layout.

The JavaScript source is shallowly embedded:
* JS objects compared by `===` / `Array.includes` / `indexOf` are modelled
  as structures carrying an explicit `ref` field: two objects are "the same
  object" exactly when the structure values are equal (fresh objects get
  fresh `ref`s in examples).
* JS `Math.floor(x / n)` on integers is `Int.fdiv x n` (floor division),
  and JS `x % n` (remainder, sign of the dividend) is `Int.tmod x n`.
* JS exceptions are `Except String`; fallible constructions are `Option`.
* Buffers are `List Nat` of byte values; BigInts are `Nat`.
-/

namespace Anvil

/-- Error message of `Section.setBlock` (src/index.js line 62). -/
def errOutsideSection : String := "Coordinates are outside section"

/-- Error message of `Chunk.setBlock` / `Chunk.getBlock` (lines 181, 195). -/
def errOutsideChunk : String := "Coordinates are outside chunk"

/-- Error message of `Chunk.getSection` (line 167). -/
def errInvalidY : String := "Invalid Y index"

/-- Error message of `Region.addChunk` (line 271). -/
def errForeignChunk : String := "Chunk does not belong in this region"

/-- Error message of `Region.setBlock` (line 284). -/
def errOutsideRegion : String := "Coordinates are outside region"

/-- Error message of `Region.fill` for the first corner (line 307). -/
def errFirstOutside : String := "First coordinates are outside region"

/-- Error message of `Region.fill` for the second corner (line 308). -/
def errSecondOutside : String := "Second coordinates are outside region"

/-- A JS `Block` object (class Block, lines 6-29).  `ref` is the object
identity (JS heap reference); `ns`/`id` are the constructor's
`namespace`/`id` strings and `props` the `properties` object, modelled as
a key/value list (JS objects have no duplicate keys). -/
structure BlockObj where
  ref : Nat
  ns : String
  id : String
  props : List (String × String)
deriving DecidableEq, Repr

/-- `get name()` (line 18): `namespace + ':' + id`. -/
def BlockObj.name (b : BlockObj) : String :=
  b.ns ++ ":" ++ b.id

/-- `shallowEqualObjects` from the shallow-equal package: equal key count
and every key of the first maps to the `===`-equal value in the second. -/
def sameProps (a b : List (String × String)) : Bool :=
  a.length == b.length && a.all (fun kv => b.lookup kv.1 == some kv.2)

/-- `Block.equals` (line 26): structural equality of namespace, id and
property bag; object identity (`ref`) does not participate. -/
def blockEquals (a b : BlockObj) : Bool :=
  a.ns == b.ns && a.id == b.id && sameProps a.props b.props

/-- A JS `Section` object (class Section, lines 31-145): a y index, the
4096-slot block array (`null` = `none`), and the per-section `this.air`
block created by the constructor. -/
structure SectionState where
  y : Int
  blocks : List (Option BlockObj)
  air : BlockObj
deriving DecidableEq, Repr

/-- The `minecraft:air` block created by the Section constructor
(line 41). -/
def airBlk : BlockObj :=
  { ref := 0, ns := "minecraft", id := "air", props := [] }

/-- `new Section(y)` (lines 38-42): 4096 null slots and a fresh
`minecraft:air` block. -/
def mkSection (y : Int) : SectionState :=
  { y := y
    blocks := List.replicate 4096 none
    air := airBlk }

/-- `Section.inside` (lines 50-52): all of x, y, z in 0..15. -/
def Section.insideB (x y z : Int) : Bool :=
  x ≥ 0 && x ≤ 15 && y ≥ 0 && y ≤ 15 && z ≥ 0 && z ≤ 15

/-- `Section.setBlock` (lines 61-65): bounds check, then store at
index `y*256 + z*16 + x`. -/
def Section.setBlock (block : BlockObj) (x y z : Int) (s : SectionState) :
    Except String SectionState :=
  if Section.insideB x y z then
    .ok { s with blocks := s.blocks.set (y * 256 + z * 16 + x).toNat (some block) }
  else
    .error errOutsideSection

/-- `Section.getBlock` (lines 74-78): bounds check, then read the slot,
resolving `null` to `this.air`. -/
def Section.getBlock (x y z : Int) (s : SectionState) : Except String BlockObj :=
  if Section.insideB x y z then
    .ok (((s.blocks.getD (y * 256 + z * 16 + x).toNat none).getD s.air))
  else
    .error errOutsideSection

/-- `Section.palette` (lines 83-92): if any slot is `null` push `this.air`
first, then push each non-null block not already present.  JS
`Array.includes` compares objects with `===`, i.e. object identity. -/
def Section.palette (s : SectionState) : List BlockObj :=
  s.blocks.foldl
    (fun pal ob =>
      match ob with
      | none => pal
      | some b => if b ∈ pal then pal else pal ++ [b])
    (if none ∈ s.blocks then [s.air] else [])

/-- The air seed list of `Section.palette` (line 85). -/
def airSeed (s : SectionState) : List BlockObj :=
  if none ∈ s.blocks then [s.air] else []

/-- Deduplication keeping first occurrences, in the spec's words
(spec §4.2: "an ordered, deduplicated sequence ... first-occurrence
order"); used to compare `Section.palette` against its description. -/
def dedupFirst {α : Type} [DecidableEq α] (l : List α) : List α :=
  l.foldl (fun acc x => if x ∈ acc then acc else acc ++ [x]) []

/-- `palette.length.toString(2).length` (line 101): the number of binary
digits of `n` (JS renders 0 as "0", one digit). -/
def jsBinStrLen (n : Nat) : Nat :=
  (Nat.toDigits 2 n).length

/-- The entry width of `Section.blockstates` (line 101):
`Math.max(palette.length.toString(2).length, 4)`. -/
def blockstatesBits (paletteLen : Nat) : Nat :=
  max (jsBinStrLen paletteLen) 4

/-- JS `Array.indexOf` under `===` (object identity); `none` models the
-1 "not found" result (which line 104-110 turns into a malformed binary
string, making `BigInt` throw). -/
def jsIndexOf {α : Type} [DecidableEq α] (l : List α) (a : α) : Option Nat :=
  if a ∈ l then some (List.indexOf a l) else none

/-- Loop body of `Section.blockstates` (lines 105-115).  The accumulator
mirrors the `states` array and the `current` binary string, the latter as
a (bit-length, value) pair: string concatenation `b + current` is
`e * 2^clen + cval`, `b.slice(bits-leftover, bits) + current` is
`(e % 2^leftover) * 2^clen + cval`, and `b.slice(0, leftover)` is
`e / 2^(bits-leftover)`.  `none` models the throwing path (`indexOf`
returning -1 makes `to_bin` produce a malformed string that `BigInt`
rejects). -/
def bsStep (pal : List BlockObj) (bits : Nat) (air : BlockObj)
    (acc : Option (List Nat × Nat × Nat)) (ob : Option BlockObj) :
    Option (List Nat × Nat × Nat) :=
  match acc with
  | none => none
  | some (states, clen, cval) =>
    match jsIndexOf pal (ob.getD air) with
    | none => none
    | some e =>
      if clen + bits > 64 then
        some (states ++ [(e % 2 ^ (clen + bits - 64)) * 2 ^ clen + cval],
              clen + bits - 64, e / 2 ^ (bits - (clen + bits - 64)))
      else
        some (states, clen + bits, e * 2 ^ clen + cval)

/-- `Section.blockstates` (lines 98-118): fold `bsStep` over the 4096
slots, then push the final `current` word.  `none` models the throwing
paths (index -1, or `BigInt('0b')` on an empty final string). -/
def Section.blockstates (s : SectionState) (palArg : Option (List BlockObj)) :
    Option (List Nat) :=
  let pal := palArg.getD (Section.palette s)
  let bits := blockstatesBits pal.length
  match s.blocks.foldl (bsStep pal bits s.air) (some ([], 0, 0)) with
  | none => none
  | some (states, clen, cval) =>
    if clen = 0 then none else some (states ++ [cval])

/-! ### Helper lemmas about `jsBinStrLen` -/

/-- Length of `Nat.toDigitsCore` output in base 2: one digit per binary
digit of `n`, on top of the accumulator. -/
theorem toDigitsCore_len :
    ∀ (fuel n : Nat) (acc : List Char), n < fuel →
      (Nat.toDigitsCore 2 fuel n acc).length = (Nat.log 2 n + 1) + acc.length := by
  intro fuel
  induction fuel with
  | zero => intro n acc h; omega
  | succ fuel ih =>
    intro n acc h
    rw [Nat.toDigitsCore]
    by_cases h2 : n / 2 = 0
    · have hn : n < 2 := by omega
      simp only [h2, if_pos rfl]
      have : Nat.log 2 n = 0 := Nat.log_eq_zero_iff.mpr (Or.inl hn)
      simp [this]
      omega
    · simp only [if_neg h2]
      have hlt : n / 2 < fuel := by
        have : n / 2 < n := Nat.div_lt_self (by omega) (by omega)
        omega
      rw [ih (n / 2) _ hlt]
      have hn2 : 2 ≤ n := by
        rcases Nat.lt_or_ge n 2 with hc | hc
        · interval_cases n <;> simp_all
        · exact hc
      have hlog : Nat.log 2 (n / 2) = Nat.log 2 n - 1 := Nat.log_div_base 2 n
      have hpos : 0 < Nat.log 2 n := Nat.log_pos (by omega) hn2
      simp only [List.length_cons]
      omega

/-- `n.toString(2).length` equals `⌊log₂ n⌋ + 1` for every `n` (also for
`n = 0`, where both sides are 1). -/
theorem jsBinStrLen_eq (n : Nat) : jsBinStrLen n = Nat.log 2 n + 1 := by
  unfold jsBinStrLen Nat.toDigits
  rw [toDigitsCore_len (n + 1) n [] (Nat.lt_succ_self n)]
  simp

/-! ### Claim C2 -/

/-- C2 counterexample: a 16-entry palette.  The claim says the entry width
is `max(ceil(log2(16)), 4) = 4`, but the code computes
`max("10000".length, 4) = 5`. -/
def pal16 : List BlockObj :=
  (List.range 16).map (fun i => { ref := i, ns := "minecraft", id := "stone", props := [] })

/-- C2 is false as stated: for a palette of length 16 the width used by
`blockstates()` is 5, not `max(ceil(log2 16), 4) = 4`. -/
theorem c2_bits_counterexample :
    blockstatesBits pal16.length ≠ max (Nat.clog 2 pal16.length) 4 := by
  have hlen : pal16.length = 16 := by
    unfold pal16; simp
  have hclog : Nat.clog 2 16 = 4 := by
    have h1 : Nat.clog 2 16 ≤ 4 :=
      (Nat.le_pow_iff_clog_le (by omega)).mp (by norm_num)
    have h2 : ¬ Nat.clog 2 16 ≤ 3 := by
      intro h
      have h3 : (16 : Nat) ≤ 2 ^ 3 := (Nat.le_pow_iff_clog_le (by omega)).mpr h
      norm_num at h3
    omega
  rw [hlen, hclog]
  decide

/-- C2 amended: the entry width used by `blockstates()` is
`bits = max(⌊log2(palette.length)⌋ + 1, 4)` — the binary digit count of
the palette length, not its ceiling log.  Consequently palettes of length
at most 15 get 4 bits and palettes of length 16 to 31 get 5 bits. -/
theorem c2_bits_amended (pal : List BlockObj) :
    blockstatesBits pal.length = max (Nat.log 2 pal.length + 1) 4
    ∧ (pal.length ≤ 15 → blockstatesBits pal.length = 4)
    ∧ (16 ≤ pal.length → pal.length ≤ 31 → blockstatesBits pal.length = 5) := by
  have hmain : blockstatesBits pal.length = max (Nat.log 2 pal.length + 1) 4 := by
    unfold blockstatesBits
    rw [jsBinStrLen_eq]
  refine ⟨hmain, ?_, ?_⟩
  · intro hle
    rw [hmain]
    rcases Nat.eq_zero_or_pos pal.length with h0 | hpos
    · simp [h0]
    · have : Nat.log 2 pal.length < 4 :=
        Nat.log_lt_of_lt_pow (by omega) (by norm_num; omega)
      omega
  · intro h16 h31
    rw [hmain]
    have : Nat.log 2 pal.length = 4 :=
      Nat.log_eq_of_pow_le_of_lt_pow (by norm_num; omega) (by norm_num; omega)
    omega

/-- C2 amended, witness at a concrete 20-entry palette. -/
theorem c2_bits_amended_witness :
    (pal16 ++ pal16.take 4).length ≤ 31
    ∧ blockstatesBits (pal16 ++ pal16.take 4).length = 5 := by
  have h := (c2_bits_amended (pal16 ++ pal16.take 4)).2.2
  have hlen : (pal16 ++ pal16.take 4).length = 20 := by unfold pal16; simp
  exact ⟨by omega, h (by omega) (by omega)⟩

/-! ### Claim C3: `Section.palette` deduplication -/

/-- One push of the palette loop (line 87-89): append the block unless it
is already present (`Array.includes`, object identity). -/
def pushNew {α : Type} [DecidableEq α] (acc : List α) (x : α) : List α :=
  if x ∈ acc then acc else acc ++ [x]

theorem dedupFirst_eq_foldl_pushNew {α : Type} [DecidableEq α] (l : List α) :
    dedupFirst l = l.foldl pushNew [] := rfl

theorem mem_pushNew {α : Type} [DecidableEq α] (acc : List α) (a x : α) :
    x ∈ pushNew acc a ↔ x ∈ acc ∨ x = a := by
  unfold pushNew
  by_cases h : a ∈ acc
  · simp only [if_pos h]
    constructor
    · exact Or.inl
    · rintro (hx | rfl)
      · exact hx
      · exact h
  · simp [if_neg h]

theorem palette_eq_filterMap_fold (s : SectionState) :
    Section.palette s = (s.blocks.filterMap id).foldl pushNew (airSeed s) := by
  unfold Section.palette airSeed
  generalize (if none ∈ s.blocks then [s.air] else []) = acc
  induction s.blocks generalizing acc with
  | nil => rfl
  | cons ob t ih =>
    cases ob with
    | none => simpa using ih _
    | some b => simpa [pushNew] using ih (pushNew acc b)

theorem foldl_pushNew_append {α : Type} [DecidableEq α] :
    ∀ (l : List α) (acc : List α), ∃ t, l.foldl pushNew acc = acc ++ t := by
  intro l
  induction l with
  | nil => exact fun acc => ⟨[], by simp⟩
  | cons a t ih =>
    intro acc
    obtain ⟨u, hu⟩ := ih (pushNew acc a)
    unfold pushNew at hu
    by_cases h : a ∈ acc
    · exact ⟨u, by simpa [List.foldl_cons, pushNew, if_pos h] using hu⟩
    · refine ⟨[a] ++ u, ?_⟩
      simp only [List.foldl_cons, pushNew, if_neg h] at hu ⊢
      simpa using hu

theorem foldl_pushNew_nodup {α : Type} [DecidableEq α] :
    ∀ (l : List α) (acc : List α), acc.Nodup → (l.foldl pushNew acc).Nodup := by
  intro l
  induction l with
  | nil => exact fun acc h => h
  | cons a t ih =>
    intro acc hacc
    refine ih _ ?_
    unfold pushNew
    by_cases h : a ∈ acc
    · simpa [if_pos h] using hacc
    · simp [if_neg h, List.nodup_append, hacc, h]

theorem mem_foldl_pushNew {α : Type} [DecidableEq α] :
    ∀ (l : List α) (acc : List α) (x : α),
      x ∈ l.foldl pushNew acc ↔ x ∈ acc ∨ x ∈ l := by
  intro l
  induction l with
  | nil => simp
  | cons a t ih =>
    intro acc x
    rw [List.foldl_cons, ih, mem_pushNew]
    constructor
    · rintro ((h | rfl) | h)
      · exact Or.inl h
      · exact Or.inr (List.mem_cons_self _ _)
      · exact Or.inr (List.mem_cons_of_mem _ h)
    · rintro (h | h)
      · exact Or.inl (Or.inl h)
      · rcases List.mem_cons.mp h with rfl | h
        · exact Or.inl (Or.inr rfl)
        · exact Or.inr h

/-- C3 counterexample input: two distinct block objects with identical
namespace, id and properties, stored in slots 0 and 1. -/
def blkA : BlockObj := { ref := 1, ns := "minecraft", id := "stone", props := [] }

/-- Second, structurally equal but distinct, block object. -/
def blkB : BlockObj := { ref := 2, ns := "minecraft", id := "stone", props := [] }

/-- Section holding `blkA` and `blkB` in slots 0 and 1. -/
def sectionDup : SectionState :=
  { mkSection 0 with
      blocks := ((List.replicate 4096 (none : Option BlockObj)).set 0 (some blkA)).set 1
        (some blkB) }

set_option maxRecDepth 100000 in
/-- C3 is false as stated: `palette()` of `sectionDup` contains two
distinct entries that are structurally equal (per the code's own
`Block.equals`), because the loop deduplicates with `Array.includes`,
i.e. object identity. -/
theorem c3_palette_counterexample :
    blkA ≠ blkB ∧ blockEquals blkA blkB = true
    ∧ blkA ∈ Section.palette sectionDup ∧ blkB ∈ Section.palette sectionDup := by
  refine ⟨by decide, by decide, ?_, ?_⟩ <;> decide

/-- C3 amended: `palette()` deduplicates by object identity, not
structural equality: it never contains the same object twice, it equals
the first-occurrence deduplication of (air seed ++ non-null slots in
increasing slot order), it contains the section's own air object iff some
slot is unset or the air object itself is stored in a slot, and when a
slot is unset air is the first entry. -/
theorem c3_palette_amended (s : SectionState) :
    (Section.palette s).Nodup
    ∧ Section.palette s = dedupFirst (airSeed s ++ s.blocks.filterMap id)
    ∧ (s.air ∈ Section.palette s ↔ none ∈ s.blocks ∨ s.air ∈ s.blocks.filterMap id)
    ∧ (none ∈ s.blocks → (Section.palette s).head? = some s.air) := by
  have hseed : (airSeed s).foldl pushNew [] = airSeed s := by
    unfold airSeed
    by_cases h : none ∈ s.blocks <;> simp [h, pushNew]
  have hfold := palette_eq_filterMap_fold s
  refine ⟨?_, ?_, ?_, ?_⟩
  · rw [hfold]
    refine foldl_pushNew_nodup _ _ ?_
    unfold airSeed
    by_cases h : none ∈ s.blocks <;> simp [h]
  · rw [hfold, dedupFirst_eq_foldl_pushNew, List.foldl_append, hseed]
  · rw [hfold, mem_foldl_pushNew]
    unfold airSeed
    by_cases h : none ∈ s.blocks <;> simp [h]
  · intro h
    rw [hfold]
    obtain ⟨t, ht⟩ := foldl_pushNew_append (s.blocks.filterMap id) (airSeed s)
    rw [ht]
    unfold airSeed
    simp [h]

/-- C3 amended, witness: concrete evaluation at `sectionDup` (which has
unset slots, so air leads its palette). -/
theorem c3_palette_amended_witness :
    none ∈ sectionDup.blocks
    ∧ (Section.palette sectionDup).head? = some sectionDup.air := by
  have h := (c3_palette_amended sectionDup).2.2.2
  exact ⟨by decide, h (by decide)⟩

/-! ### Claim C4: word count and word range of `blockstates` -/

/-- Every slot's resolved block (air for `null`) occurs in the section's
own palette, so `indexOf` never returns -1 in the self-palette case. -/
theorem palette_complete (s : SectionState) :
    ∀ ob ∈ s.blocks, (ob.getD s.air) ∈ Section.palette s := by
  intro ob hob
  rw [palette_eq_filterMap_fold, mem_foldl_pushNew]
  cases ob with
  | none =>
    left
    unfold airSeed
    simp [hob]
  | some b =>
    right
    simp only [Option.getD_some, List.mem_filterMap, id]
    exact ⟨some b, hob, rfl⟩

theorem foldl_pushNew_length {α : Type} [DecidableEq α] :
    ∀ (l acc : List α), (l.foldl pushNew acc).length ≤ acc.length + l.length := by
  intro l
  induction l with
  | nil => simp
  | cons a t ih =>
    intro acc
    have h := ih (pushNew acc a)
    have h2 : (pushNew acc a).length ≤ acc.length + 1 := by
      unfold pushNew
      by_cases hmem : a ∈ acc <;> simp [hmem]
    rw [List.foldl_cons]
    simp only [List.length_cons]
    omega

/-- A palette has at most one entry per slot plus air. -/
theorem palette_length_le (s : SectionState) :
    (Section.palette s).length ≤ s.blocks.length + 1 := by
  rw [palette_eq_filterMap_fold]
  have h1 := foldl_pushNew_length (s.blocks.filterMap id) (airSeed s)
  have h2 : (airSeed s).length ≤ 1 := by
    unfold airSeed
    by_cases h : none ∈ s.blocks <;> simp [h]
  have h3 : (s.blocks.filterMap id).length ≤ s.blocks.length :=
    List.length_filterMap_le _ _
  omega

theorem lt_pow_blockstatesBits (n : Nat) : n < 2 ^ blockstatesBits n := by
  have h1 : n < 2 ^ jsBinStrLen n := by
    rw [jsBinStrLen_eq]
    exact Nat.lt_pow_succ_log_self (by omega) n
  exact lt_of_lt_of_le h1 (Nat.pow_le_pow_right (by omega) (Nat.le_max_left _ _))

theorem blockstatesBits_le_of_le_4097 (n : Nat) (h : n ≤ 4097) :
    blockstatesBits n ≤ 13 := by
  unfold blockstatesBits
  rw [jsBinStrLen_eq]
  have hm : Nat.log 2 n ≤ Nat.log 2 4097 := Nat.log_mono_right h
  have h12 : Nat.log 2 4097 = 12 :=
    Nat.log_eq_of_pow_le_of_lt_pow (by norm_num) (by norm_num)
  omega

/-- Invariant of the packing loop: `clen` tracks `bits·(entries so far)`
modulo the words already emitted, stays in (0, 64] after the first entry,
`cval` fits in `clen` bits, and every emitted word fits in `64 + bits`
bits (boundary-straddling entries overflow plain 64-bit range). -/
theorem bsFold_inv (pal : List BlockObj) (bits : Nat) (air : BlockObj)
    (hb4 : 4 ≤ bits) (hb64 : bits ≤ 64) (hpal : pal.length ≤ 2 ^ bits) :
    ∀ (l : List (Option BlockObj)) (ws : List Nat) (c v k : Nat),
      (∀ ob ∈ l, (ob.getD air) ∈ pal) →
      c ≤ 64 → v < 2 ^ c → bits * k = 64 * ws.length + c →
      (0 < k → 0 < c) → (∀ w ∈ ws, w < 2 ^ (64 + bits)) →
      ∃ ws2 c2 v2,
        l.foldl (bsStep pal bits air) (some (ws, c, v)) = some (ws2, c2, v2)
        ∧ c2 ≤ 64 ∧ v2 < 2 ^ c2
        ∧ bits * (k + l.length) = 64 * ws2.length + c2
        ∧ (0 < k + l.length → 0 < c2)
        ∧ (∀ w ∈ ws2, w < 2 ^ (64 + bits)) := by
  intro l
  induction l with
  | nil =>
    intro ws c v k hmem hc hv hcount hpos hws
    exact ⟨ws, c, v, rfl, hc, hv, by simpa using hcount, by simpa using hpos, hws⟩
  | cons ob t ih =>
    intro ws c v k hmem hc hv hcount hpos hws
    have hobmem : (ob.getD air) ∈ pal := hmem ob (List.mem_cons_self _ _)
    have hidx : jsIndexOf pal (ob.getD air) = some (List.indexOf (ob.getD air) pal) := by
      unfold jsIndexOf
      rw [if_pos hobmem]
    set e := List.indexOf (ob.getD air) pal with he
    have he_lt : e < pal.length := List.indexOf_lt_length.mpr hobmem
    have he2 : e < 2 ^ bits := lt_of_lt_of_le he_lt hpal
    have hmemt : ∀ ob2 ∈ t, (ob2.getD air) ∈ pal :=
      fun ob2 h2 => hmem ob2 (List.mem_cons_of_mem _ h2)
    rw [List.foldl_cons]
    by_cases hov : c + bits > 64
    · have hstep : bsStep pal bits air (some (ws, c, v)) ob
          = some (ws ++ [(e % 2 ^ (c + bits - 64)) * 2 ^ c + v],
                  c + bits - 64, e / 2 ^ (bits - (c + bits - 64))) := by
        unfold bsStep
        rw [hidx]
        simp [hov]
      rw [hstep]
      have hLle : c + bits - 64 ≤ bits := by omega
      have hpow_pos : (0 : Nat) < 2 ^ (c + bits - 64) := Nat.pos_pow_of_pos _ (by omega)
      have hv2 : e / 2 ^ (bits - (c + bits - 64)) < 2 ^ (c + bits - 64) := by
        rw [Nat.div_lt_iff_lt_mul (Nat.pos_pow_of_pos _ (by omega))]
        calc e < 2 ^ bits := he2
          _ = 2 ^ ((c + bits - 64) + (bits - (c + bits - 64))) := by
              congr 1
              omega
          _ = 2 ^ (c + bits - 64) * 2 ^ (bits - (c + bits - 64)) := pow_add 2 _ _
      have hmod : e % 2 ^ (c + bits - 64) < 2 ^ (c + bits - 64) :=
        Nat.mod_lt _ hpow_pos
      have hword : (e % 2 ^ (c + bits - 64)) * 2 ^ c + v < 2 ^ (64 + bits) := by
        have hstep1 : (e % 2 ^ (c + bits - 64)) * 2 ^ c + v
            < (e % 2 ^ (c + bits - 64) + 1) * 2 ^ c := by
          rw [add_mul, one_mul]
          omega
        have hstep2 : (e % 2 ^ (c + bits - 64) + 1) * 2 ^ c
            ≤ 2 ^ (c + bits - 64) * 2 ^ c :=
          Nat.mul_le_mul_right _ (by omega)
        have hstep3 : 2 ^ (c + bits - 64) * 2 ^ c = 2 ^ ((c + bits - 64) + c) :=
          (pow_add 2 _ _).symm
        have hstep4 : (2 : Nat) ^ ((c + bits - 64) + c) ≤ 2 ^ (64 + bits) :=
          Nat.pow_le_pow_right (by omega) (by omega)
        omega
      have hws2 : ∀ w ∈ ws ++ [(e % 2 ^ (c + bits - 64)) * 2 ^ c + v],
          w < 2 ^ (64 + bits) := by
        intro w hw
        rcases List.mem_append.mp hw with hw | hw
        · exact hws w hw
        · rcases List.mem_singleton.mp hw with rfl
          exact hword
      have hbk : bits * (k + 1) = bits * k + bits := by ring
      have hcount2 : bits * (k + 1)
          = 64 * (ws ++ [(e % 2 ^ (c + bits - 64)) * 2 ^ c + v]).length
            + (c + bits - 64) := by
        rw [hbk]
        simp only [List.length_append, List.length_singleton]
        omega
      obtain ⟨ws2, c2, v2, hfold, hc2, hv2b, hcount3, hpos3, hwords3⟩ :=
        ih _ (c + bits - 64) _ (k + 1) hmemt (by omega) hv2 hcount2 (by omega) hws2
      refine ⟨ws2, c2, v2, hfold, hc2, hv2b, ?_, ?_, hwords3⟩
      · have harr : k + (ob :: t).length = (k + 1) + t.length := by
          simp only [List.length_cons]
          omega
        rw [harr]
        exact hcount3
      · intro _
        exact hpos3 (by omega)
    · have hstep : bsStep pal bits air (some (ws, c, v)) ob
          = some (ws, c + bits, e * 2 ^ c + v) := by
        unfold bsStep
        rw [hidx]
        simp [hov]
      rw [hstep]
      have hv2 : e * 2 ^ c + v < 2 ^ (c + bits) := by
        have hstep1 : e * 2 ^ c + v < (e + 1) * 2 ^ c := by
          rw [add_mul, one_mul]
          omega
        have hstep2 : (e + 1) * 2 ^ c ≤ 2 ^ bits * 2 ^ c :=
          Nat.mul_le_mul_right _ (by omega)
        have hstep3 : (2 : Nat) ^ bits * 2 ^ c = 2 ^ (c + bits) := by
          rw [← pow_add]
          ring_nf
        omega
      have hbk : bits * (k + 1) = bits * k + bits := by ring
      have hcount2 : bits * (k + 1) = 64 * ws.length + (c + bits) := by
        rw [hbk]
        omega
      obtain ⟨ws2, c2, v2, hfold, hc2, hv2b, hcount3, hpos3, hwords3⟩ :=
        ih ws (c + bits) _ (k + 1) hmemt (by omega) hv2 hcount2 (by omega) hws
      refine ⟨ws2, c2, v2, hfold, hc2, hv2b, ?_, ?_, hwords3⟩
      · have harr : k + (ob :: t).length = (k + 1) + t.length := by
          simp only [List.length_cons]
          omega
        rw [harr]
        exact hcount3
      · intro _
        exact hpos3 (by omega)

/-- C4 amended: with a valid 4096-slot grid and its own palette,
`blockstates()` succeeds and returns exactly `ceil(4096·bits/64)` values,
but each value is only guaranteed to be below `2^(64+bits)`, not `2^64`:
an entry packed at an exact word boundary is emitted in the finished word
*and* carried into the next one, so returned values can reach `2^64`
(the `BigInt64Array` conversion in `Section.save` later truncates them
mod `2^64`). -/
theorem c4_blockstates_amended (s : SectionState) (h4096 : s.blocks.length = 4096) :
    ∃ ws, Section.blockstates s none = some ws
      ∧ ws.length = (4096 * blockstatesBits (Section.palette s).length + 63) / 64
      ∧ ∀ w ∈ ws, w < 2 ^ (64 + blockstatesBits (Section.palette s).length) := by
  have hb4 : 4 ≤ blockstatesBits (Section.palette s).length := Nat.le_max_right _ _
  have hb64 : blockstatesBits (Section.palette s).length ≤ 64 := by
    have hlen : (Section.palette s).length ≤ 4097 := by
      have := palette_length_le s
      omega
    have := blockstatesBits_le_of_le_4097 _ hlen
    omega
  have hpal : (Section.palette s).length ≤ 2 ^ blockstatesBits (Section.palette s).length :=
    le_of_lt (lt_pow_blockstatesBits _)
  obtain ⟨ws2, c2, v2, hfold, hc2, hv2, hcount, hpos, hwords⟩ :=
    bsFold_inv (Section.palette s) (blockstatesBits (Section.palette s).length) s.air
      hb4 hb64 hpal s.blocks [] 0 0 0
      (palette_complete s) (by omega) (by simp) (by simp) (by omega) (by simp)
  set bits := blockstatesBits (Section.palette s).length with hbits
  rw [h4096] at hcount hpos
  simp only [Nat.zero_add] at hcount hpos
  have hc2pos : 0 < c2 := hpos (by omega)
  have hc64 : c2 = 64 := by
    have hdvd : (64 : Nat) ∣ bits * 4096 := ⟨bits * 64, by ring⟩
    omega
  refine ⟨ws2 ++ [v2], ?_, ?_, ?_⟩
  · unfold Section.blockstates
    simp only [Option.getD_none]
    rw [hfold]
    simp only
    rw [if_neg (by omega)]
  · simp only [List.length_append, List.length_singleton]
    omega
  · intro w hw
    rcases List.mem_append.mp hw with hw | hw
    · exact hwords w hw
    · rw [List.mem_singleton.mp hw]
      calc v2 < 2 ^ c2 := hv2
        _ ≤ 2 ^ (64 + bits) := Nat.pow_le_pow_right (by omega) (by omega)

/-- C4 amended, witness: a fresh all-air section. -/
theorem c4_blockstates_amended_witness :
    (mkSection 0).blocks.length = 4096
    ∧ ∃ ws, Section.blockstates (mkSection 0) none = some ws
      ∧ ws.length = (4096 * blockstatesBits (Section.palette (mkSection 0)).length + 63) / 64
      ∧ ∀ w ∈ ws, w < 2 ^ (64 + blockstatesBits (Section.palette (mkSection 0)).length) :=
  ⟨by simp only [mkSection, List.length_replicate],
    c4_blockstates_amended (mkSection 0) (by simp only [mkSection, List.length_replicate])⟩

/-- C4 counterexample input: one non-air block at slot 16 — the entry
processed exactly when `current` holds a full 64 bits. -/
def sectionBoundary : SectionState :=
  { mkSection 0 with
      blocks := (List.replicate 4096 (none : Option BlockObj)).set 16 (some blkA) }

theorem bsFold_none (pal : List BlockObj) (bits : Nat) (air : BlockObj) :
    ∀ l : List (Option BlockObj),
      l.foldl (bsStep pal bits air) none = none := by
  intro l
  induction l with
  | nil => rfl
  | cons ob t ih => simpa [bsStep] using ih

/-- The packing loop only ever appends to `states`: words already emitted
stay in the output. -/
theorem bsFold_mono (pal : List BlockObj) (bits : Nat) (air : BlockObj) :
    ∀ (l : List (Option BlockObj)) (ws : List Nat) (c v : Nat)
      (ws2 : List Nat) (c2 v2 : Nat),
      l.foldl (bsStep pal bits air) (some (ws, c, v)) = some (ws2, c2, v2) →
      ∀ w ∈ ws, w ∈ ws2 := by
  intro l
  induction l with
  | nil =>
    intro ws c v ws2 c2 v2 h w hw
    rw [List.foldl_nil] at h
    cases h
    exact hw
  | cons ob t ih =>
    intro ws c v ws2 c2 v2 h w hw
    rw [List.foldl_cons] at h
    rcases hstep : bsStep pal bits air (some (ws, c, v)) ob with _ | ⟨ws1, c1, v1⟩
    · rw [hstep, bsFold_none] at h
      cases h
    · rw [hstep] at h
      refine ih ws1 c1 v1 ws2 c2 v2 h w ?_
      rcases hidx : jsIndexOf pal (ob.getD air) with _ | e
      · have hval : bsStep pal bits air (some (ws, c, v)) ob = none := by
          unfold bsStep
          rw [hidx]
        rw [hval] at hstep
        cases hstep
      · by_cases hov : c + bits > 64
        · have hval : bsStep pal bits air (some (ws, c, v)) ob
              = some (ws ++ [(e % 2 ^ (c + bits - 64)) * 2 ^ c + v], c + bits - 64,
                      e / 2 ^ (bits - (c + bits - 64))) := by
            unfold bsStep
            rw [hidx]
            simp [hov]
          rw [hval] at hstep
          cases hstep
          exact List.mem_append_left _ hw
        · have hval : bsStep pal bits air (some (ws, c, v)) ob
              = some (ws, c + bits, e * 2 ^ c + v) := by
            unfold bsStep
            rw [hidx]
            simp [hov]
          rw [hval] at hstep
          cases hstep
          exact hw

set_option maxRecDepth 100000 in
theorem sectionBoundary_palette :
    Section.palette sectionBoundary = [airBlk, blkA] := by
  decide

set_option maxRecDepth 100000 in
theorem sectionBoundary_take17 :
    (sectionBoundary.blocks.take 17).foldl (bsStep [airBlk, blkA] 4 airBlk)
      (some ([], 0, 0)) = some ([2 ^ 64], 4, 1) := by
  decide

theorem sectionBoundary_drop17 :
    sectionBoundary.blocks.drop 17 = List.replicate 4079 none := by
  show ((List.replicate 4096 (none : Option BlockObj)).set 16 (some blkA)).drop 17 = _
  rw [List.drop_set, if_pos (by omega), List.drop_replicate]

/-- C4 is false as stated: `blockstates()` of `sectionBoundary` returns a
word equal to `2^64`, exceeding the claimed 0..2^64-1 range: the non-air
entry at slot 16 straddles the first word boundary and is emitted into
the finished word at bit 64 (and also carried into the next word). -/
theorem c4_blockstates_counterexample :
    ∃ ws, Section.blockstates sectionBoundary none = some ws ∧ 2 ^ 64 ∈ ws := by
  have hb : sectionBoundary.blocks
      = sectionBoundary.blocks.take 17 ++ sectionBoundary.blocks.drop 17 :=
    (List.take_append_drop 17 _).symm
  have hbits : blockstatesBits ([airBlk, blkA] : List BlockObj).length = 4 := by decide
  have hmem : ∀ ob ∈ sectionBoundary.blocks.drop 17,
      (ob.getD airBlk) ∈ ([airBlk, blkA] : List BlockObj) := by
    rw [sectionBoundary_drop17]
    intro ob hob
    rw [(List.eq_of_mem_replicate hob : ob = none)]
    simp
  obtain ⟨ws2, c2, v2, hfold, hc2, hv2, hcount, hpos, hwords⟩ :=
    bsFold_inv [airBlk, blkA] 4 airBlk (by omega) (by omega) (by simp)
      (sectionBoundary.blocks.drop 17) [2 ^ 64] 4 1 17
      hmem (by omega) (by norm_num) (by simp) (by omega)
      (by
        intro w hw
        rw [List.mem_singleton.mp hw]
        norm_num)
  have hmain : sectionBoundary.blocks.foldl (bsStep [airBlk, blkA] 4 airBlk)
      (some ([], 0, 0)) = some (ws2, c2, v2) := by
    rw [hb, List.foldl_append, sectionBoundary_take17]
    exact hfold
  have hc2pos : 0 < c2 := by
    apply hpos
    omega
  refine ⟨ws2 ++ [v2], ?_, ?_⟩
  · unfold Section.blockstates
    have hair : sectionBoundary.air = airBlk := rfl
    simp only [Option.getD_none, sectionBoundary_palette, hbits, hair]
    rw [hmain]
    simp only
    rw [if_neg (by omega)]
  · exact List.mem_append_left _ (bsFold_mono _ _ _ _ _ _ _ _ _ _ hfold _
      (List.mem_singleton_self _))

/-! ### Chunk and Region data model -/

/-- A JS `Chunk` object (class Chunk, lines 147-226): coordinates, the
sparse `sections` array (in push order), and the fixed data version. -/
structure ChunkState where
  x : Int
  z : Int
  sections : List SectionState
  version : Int
deriving DecidableEq, Repr

/-- `new Chunk(x, z)` (lines 154-159). -/
def mkChunk (x z : Int) : ChunkState :=
  { x := x, z := z, sections := [], version := 1976 }

/-- `Chunk.getSection` (lines 166-171): bounds check on the y index, then
return the first stored section with that y (or nothing). -/
def Chunk.getSection (y : Int) (c : ChunkState) : Except String (Option SectionState) :=
  if y < 0 ∨ 15 < y then .error errInvalidY
  else .ok (c.sections.find? (fun s => s.y == y))

/-- `Chunk.setBlock` (lines 194-202): bounds check, resolve the section
for `Math.floor(y/16)` (created and pushed on demand), then delegate with
local y = `y % 16` (JS remainder).  The JS code mutates the found section
object in place; here the updated section replaces the first list entry
with that y index. -/
def Chunk.setBlock (block : BlockObj) (x y z : Int) (c : ChunkState) :
    Except String ChunkState :=
  if x < 0 ∨ 15 < x ∨ z < 0 ∨ 15 < z ∨ y < 0 ∨ 255 < y then
    .error errOutsideChunk
  else
    match Chunk.getSection (Int.fdiv y 16) c with
    | .error e => .error e
    | .ok osec =>
      match osec with
      | some sec =>
        match Section.setBlock block x (Int.tmod y 16) z sec with
        | .error e => .error e
        | .ok sec2 =>
          .ok { c with sections :=
            c.sections.set (c.sections.findIdx (fun s => s.y == Int.fdiv y 16)) sec2 }
      | none =>
        match Section.setBlock block x (Int.tmod y 16) z (mkSection (Int.fdiv y 16)) with
        | .error e => .error e
        | .ok sec2 => .ok { c with sections := c.sections ++ [sec2] }

/-- A JS `Region` object (class Region, lines 227-386).  The
`Array(1024)` chunk store is modelled as a total map from the computed
JS array index to an optional chunk: unset and `null` entries (both falsy
in the source's `!chunk` tests) are `none`.  Negative computed indices —
which JS silently accepts as plain properties — are thereby representable
too. -/
structure RegionState where
  x : Int
  z : Int
  chunks : Int → Option ChunkState

/-- `new Region(x, z)` (lines 234-238): all 1024 slots null. -/
def mkRegion (x z : Int) : RegionState :=
  { x := x, z := z, chunks := fun _ => none }

/-- `Region.inside` (lines 247-252): divisor 512 for block coordinates,
32 for chunk coordinates; `Math.floor` division; the y range check is
performed in both modes. -/
def Region.insideB (r : RegionState) (x y z : Int) (chunk : Bool) : Bool :=
  let factor : Int := if chunk then 32 else 512
  Int.fdiv x factor == r.x && Int.fdiv z factor == r.z && y ≥ 0 && y ≤ 255

/-- The chunk-array index `z % 32 * 32 + x % 32` (lines 262, 273), with
JS remainder semantics (negative for negative coordinates). -/
def chunkKey (cx cz : Int) : Int :=
  Int.tmod cz 32 * 32 + Int.tmod cx 32

/-- `Region.getChunk` (lines 260-263): nothing when outside (chunk
coordinates), else the chunk stored at the computed index. -/
def Region.getChunk (cx cz : Int) (r : RegionState) : Option ChunkState :=
  if !(Region.insideB r cx 0 cz true) then none
  else r.chunks (chunkKey cx cz)

/-- `Region.addChunk` (lines 269-274): error when the chunk's coordinates
are not inside this region, else store it at its computed index. -/
def Region.addChunk (c : ChunkState) (r : RegionState) : Except String RegionState :=
  if !(Region.insideB r c.x 0 c.z true) then .error errForeignChunk
  else .ok { r with chunks := fun k => if k = chunkKey c.x c.z then some c else r.chunks k }

/-- `Region.setBlock` (lines 283-293): region bounds check, resolve the
owning chunk (`Math.floor`, created via addChunk on demand), delegate
with locals `x % 16`, y, `z % 16` (JS remainder).  The JS code mutates
the stored chunk object in place; here the updated chunk is written back
at its index. -/
def Region.setBlock (block : BlockObj) (x y z : Int) (r : RegionState) :
    Except String RegionState :=
  if !(Region.insideB r x y z false) then .error errOutsideRegion
  else
    match Region.getChunk (Int.fdiv x 16) (Int.fdiv z 16) r with
    | some ch =>
      match Chunk.setBlock block (Int.tmod x 16) y (Int.tmod z 16) ch with
      | .error e => .error e
      | .ok ch2 => .ok { r with chunks := fun k =>
          if (k = chunkKey (Int.fdiv x 16) (Int.fdiv z 16)) then some ch2 else r.chunks k }
    | none =>
      match Region.addChunk (mkChunk (Int.fdiv x 16) (Int.fdiv z 16)) r with
      | .error e => .error e
      | .ok r2 =>
        match Chunk.setBlock block (Int.tmod x 16) y (Int.tmod z 16)
            (mkChunk (Int.fdiv x 16) (Int.fdiv z 16)) with
        | .error e => .error e
        | .ok ch2 => .ok { r2 with chunks := fun k =>
            if (k = chunkKey (Int.fdiv x 16) (Int.fdiv z 16)) then some ch2 else r2.chunks k }

/-- `fill`'s first argument (line 296): a block, or a per-coordinate
generator function (`typeof block === 'function'`). -/
inductive BlockOrFn where
  | block (b : BlockObj)
  | fn (f : Int → Int → Int → BlockObj)

/-- Resolve `fill`'s block argument at a coordinate (lines 317-318). -/
def evalB : BlockOrFn → Int → Int → Int → BlockObj
  | .block b, _, _, _ => b
  | .fn f, x, y, z => f x y z

/-- The values visited by one `for (let a = a1; a2 > a1 ? a <= a2 : a >= a2;
a += a2 > a1 ? 1 : -1)` loop (lines 313-315): an inclusive range that
counts up when `a2 > a1` and down otherwise. -/
def jsRangeIncl (a b : Int) : List Int :=
  if b > a then (List.range (b - a + 1).toNat).map (fun (i : Nat) => a + (i : Int))
  else (List.range (a - b + 1).toNat).map (fun (i : Nat) => a - (i : Int))

/-- The coordinates visited by `Region.fill`'s triple loop, y outermost,
then z, then x (lines 313-315), in visit order. -/
def fillVisits (x1 y1 z1 x2 y2 z2 : Int) : List (Int × Int × Int) :=
  (jsRangeIncl y1 y2).flatMap (fun y =>
    (jsRangeIncl z1 z2).flatMap (fun z =>
      (jsRangeIncl x1 x2).map (fun x => (x, y, z))))

/-- `Region.fill` (lines 305-322): corner checks unless `ignoreOutside`,
then visit the cuboid, skipping out-of-region cells when `ignoreOutside`,
delegating each cell to setBlock. -/
def Region.fill (block : BlockOrFn) (x1 y1 z1 x2 y2 z2 : Int) (ignoreOutside : Bool)
    (r : RegionState) : Except String RegionState :=
  if !ignoreOutside && !(Region.insideB r x1 y1 z1 false) then .error errFirstOutside
  else if !ignoreOutside && !(Region.insideB r x2 y2 z2 false) then .error errSecondOutside
  else
    (fillVisits x1 y1 z1 x2 y2 z2).foldlM
      (fun s p =>
        if ignoreOutside && !(Region.insideB s p.1 p.2.1 p.2.2 false) then .ok s
        else Region.setBlock (evalB block p.1 p.2.1 p.2.2) p.1 p.2.1 p.2.2 s)
      r

/-! ### Claim C9: `inside` in chunk-coordinate mode -/

/-- C9 is false as stated: chunk-mode `inside` is not independent of y.
At `(0, -1, 0)` on region (0, 0) both chunk-coordinate tests hold, yet
`inside` returns false because the 0..255 y check runs in chunk mode
too. -/
theorem c9_inside_counterexample :
    Int.fdiv 0 32 = (mkRegion 0 0).x ∧ Int.fdiv 0 32 = (mkRegion 0 0).z
    ∧ Region.insideB (mkRegion 0 0) 0 (-1) 0 true = false := by
  refine ⟨rfl, rfl, ?_⟩
  decide

/-- C9 amended: chunk-mode `inside(x, y, z, true)` returns true exactly
when `floor(x/32)` equals the region's x, `floor(z/32)` equals the
region's z, and additionally `0 ≤ y ≤ 255` — the y range check is not
skipped in chunk mode (internal callers pass y = 0, which always
satisfies it). -/
theorem c9_inside_amended (r : RegionState) (x y z : Int) :
    Region.insideB r x y z true = true
    ↔ (Int.fdiv x 32 = r.x ∧ Int.fdiv z 32 = r.z ∧ 0 ≤ y ∧ y ≤ 255) := by
  unfold Region.insideB
  simp only [if_pos rfl, Bool.and_eq_true, beq_iff_eq, decide_eq_true_eq, ge_iff_le]
  constructor
  · rintro ⟨⟨⟨h1, h2⟩, h3⟩, h4⟩
    exact ⟨h1, h2, h3, h4⟩
  · rintro ⟨h1, h2, h3, h4⟩
    exact ⟨⟨⟨h1, h2⟩, h3⟩, h4⟩

/-! ### Claims C5 and C6: negative coordinates break setBlock and fill -/

/-- C5 failing input: region (-1, 0), block coordinate (-1, 0, 0).  The
coordinate is inside the region (floor(-1/512) = -1), but `setBlock`
throws the chunk-level OutOfRange error: the chunk-local x is computed
with the JS remainder `-1 % 16 = -1`, which fails `Chunk.setBlock`'s
`x < 0` check instead of storing at local x = 15. -/
theorem c5_setblock_negative_bug :
    Region.insideB (mkRegion (-1) 0) (-1) 0 0 false = true
    ∧ Region.setBlock blkA (-1) 0 0 (mkRegion (-1) 0) = .error errOutsideChunk := by
  constructor
  · decide
  · rfl

/-- C6 failing input: region (-1, 0), both fill corners (-1, 0, 0).  Both
corners are inside the region, `ignoreOutside` is false, yet the call
raises (the chunk-level OutOfRange from the negative JS remainder) rather
than completing. -/
theorem c6_fill_negative_bug :
    Region.insideB (mkRegion (-1) 0) (-1) 0 0 false = true
    ∧ Region.fill (BlockOrFn.block blkA) (-1) 0 0 (-1) 0 0 false (mkRegion (-1) 0)
      = .error errOutsideChunk := by
  constructor
  · decide
  · rfl

/-! ### Claim C7: fill with swapped corners -/

theorem fdiv_fdiv_16_32 (x : Int) : Int.fdiv (Int.fdiv x 16) 32 = Int.fdiv x 512 := by
  rw [Int.fdiv_eq_ediv _ (by omega), Int.fdiv_eq_ediv _ (by omega),
    Int.fdiv_eq_ediv _ (by omega)]
  omega

/-- Block-coordinate `inside` unpacked. -/
theorem insideB_block_iff (r : RegionState) (x y z : Int) :
    Region.insideB r x y z false = true
    ↔ (Int.fdiv x 512 = r.x ∧ Int.fdiv z 512 = r.z ∧ 0 ≤ y ∧ y ≤ 255) := by
  unfold Region.insideB
  simp only [if_neg (by simp : ¬ False), Bool.and_eq_true, beq_iff_eq, decide_eq_true_eq,
    ge_iff_le]
  constructor
  · rintro ⟨⟨⟨h1, h2⟩, h3⟩, h4⟩
    exact ⟨h1, h2, h3, h4⟩
  · rintro ⟨h1, h2, h3, h4⟩
    exact ⟨⟨⟨h1, h2⟩, h3⟩, h4⟩

/-- Chunk-coordinate `inside` unpacked (helper). -/
theorem insideB_chunk_iff (r : RegionState) (x y z : Int) :
    Region.insideB r x y z true = true
    ↔ (Int.fdiv x 32 = r.x ∧ Int.fdiv z 32 = r.z ∧ 0 ≤ y ∧ y ≤ 255) := by
  unfold Region.insideB
  simp only [if_pos rfl, Bool.and_eq_true, beq_iff_eq, decide_eq_true_eq, ge_iff_le]
  constructor
  · rintro ⟨⟨⟨h1, h2⟩, h3⟩, h4⟩
    exact ⟨h1, h2, h3, h4⟩
  · rintro ⟨h1, h2, h3, h4⟩
    exact ⟨⟨⟨h1, h2⟩, h3⟩, h4⟩

theorem mem_jsRangeIncl (a b x : Int) :
    x ∈ jsRangeIncl a b ↔ (min a b ≤ x ∧ x ≤ max a b) := by
  unfold jsRangeIncl
  by_cases hab : b > a
  · rw [if_pos hab]
    constructor
    · intro hx
      obtain ⟨i, hi, hix⟩ := List.mem_map.mp hx
      rw [List.mem_range] at hi
      subst hix
      omega
    · rintro ⟨h1, h2⟩
      exact List.mem_map.mpr ⟨(x - a).toNat, List.mem_range.mpr (by omega), by omega⟩
  · rw [if_neg hab]
    constructor
    · intro hx
      obtain ⟨i, hi, hix⟩ := List.mem_map.mp hx
      rw [List.mem_range] at hi
      subst hix
      omega
    · rintro ⟨h1, h2⟩
      exact List.mem_map.mpr ⟨(a - x).toNat, List.mem_range.mpr (by omega), by omega⟩

theorem jsRangeIncl_swap (a b : Int) :
    jsRangeIncl b a = (jsRangeIncl a b).reverse := by
  rcases lt_trichotomy a b with hab | rfl | hab
  · have h1 : jsRangeIncl b a = (List.range (b - a + 1).toNat).map (fun (i : Nat) => b - (i : Int)) := by
      unfold jsRangeIncl
      rw [if_neg (by omega)]
    have h2 : jsRangeIncl a b = (List.range (b - a + 1).toNat).map (fun (i : Nat) => a + (i : Int)) := by
      unfold jsRangeIncl
      rw [if_pos (by omega)]
    rw [h1, h2]
    refine List.ext_getElem (by simp) ?_
    intro i hi1 hi2
    simp only [List.length_map, List.length_range] at hi1 hi2
    rw [List.getElem_reverse]
    simp only [List.getElem_map, List.getElem_range, List.length_map, List.length_range]
    omega
  · have h1 : jsRangeIncl a a = [a] := by
      unfold jsRangeIncl
      rw [if_neg (by omega)]
      norm_num [List.range_succ]
    rw [h1]
    simp
  · have h1 : jsRangeIncl b a = (List.range (a - b + 1).toNat).map (fun (i : Nat) => b + (i : Int)) := by
      unfold jsRangeIncl
      rw [if_pos (by omega)]
    have h2 : jsRangeIncl a b = (List.range (a - b + 1).toNat).map (fun (i : Nat) => a - (i : Int)) := by
      unfold jsRangeIncl
      rw [if_neg (by omega)]
    rw [h1, h2]
    refine List.ext_getElem (by simp) ?_
    intro i hi1 hi2
    simp only [List.length_map, List.length_range] at hi1 hi2
    rw [List.getElem_reverse]
    simp only [List.getElem_map, List.getElem_range, List.length_map, List.length_range]
    omega

theorem mem_fillVisits (x1 y1 z1 x2 y2 z2 px py pz : Int) :
    (px, py, pz) ∈ fillVisits x1 y1 z1 x2 y2 z2
    ↔ (min x1 x2 ≤ px ∧ px ≤ max x1 x2 ∧ min y1 y2 ≤ py ∧ py ≤ max y1 y2
        ∧ min z1 z2 ≤ pz ∧ pz ≤ max z1 z2) := by
  unfold fillVisits
  constructor
  · intro hp
    obtain ⟨y, hy, hp⟩ := List.mem_flatMap.mp hp
    obtain ⟨z, hz, hp⟩ := List.mem_flatMap.mp hp
    obtain ⟨x, hx, hp⟩ := List.mem_map.mp hp
    obtain ⟨rfl, rfl, rfl⟩ := Prod.mk.injEq .. ▸ hp
    rw [mem_jsRangeIncl] at hx hy hz
    exact ⟨hx.1, hx.2, hy.1, hy.2, hz.1, hz.2⟩
  · rintro ⟨hx1, hx2, hy1, hy2, hz1, hz2⟩
    refine List.mem_flatMap.mpr ⟨py, (mem_jsRangeIncl _ _ _).mpr ⟨hy1, hy2⟩, ?_⟩
    refine List.mem_flatMap.mpr ⟨pz, (mem_jsRangeIncl _ _ _).mpr ⟨hz1, hz2⟩, ?_⟩
    exact List.mem_map.mpr ⟨px, (mem_jsRangeIncl _ _ _).mpr ⟨hx1, hx2⟩, rfl⟩

theorem fillVisits_swap (x1 y1 z1 x2 y2 z2 : Int) :
    fillVisits x2 y2 z2 x1 y1 z1 = (fillVisits x1 y1 z1 x2 y2 z2).reverse := by
  unfold fillVisits
  rw [jsRangeIncl_swap y1 y2, jsRangeIncl_swap z1 z2, jsRangeIncl_swap x1 x2,
    List.reverse_flatMap]
  refine congrArg _ (funext fun y => ?_)
  show _ = ((jsRangeIncl z1 z2).flatMap fun z =>
      (jsRangeIncl x1 x2).map fun x => (x, y, z)).reverse
  rw [List.reverse_flatMap]
  refine congrArg _ (funext fun z => ?_)
  show List.map _ (jsRangeIncl x1 x2).reverse = _
  rw [List.map_reverse]
  rfl

/-- The state transform that `Section.setBlock` performs on its success
path (proved equal to it in `sectionSetBlock_ok`). -/
def sectionWrite (b : BlockObj) (x y z : Int) (s : SectionState) : SectionState :=
  { s with blocks := s.blocks.set (y * 256 + z * 16 + x).toNat (some b) }

/-- The state transform that `Chunk.setBlock` performs on its success
path (proved equal to it in `chunkSetBlock_ok`). -/
def chunkWrite (b : BlockObj) (x y z : Int) (c : ChunkState) : ChunkState :=
  match c.sections.find? (fun s => s.y == Int.fdiv y 16) with
  | some sec => { c with sections :=
      (c.sections.set (c.sections.findIdx (fun s => s.y == Int.fdiv y 16))
        (sectionWrite b x (Int.tmod y 16) z sec)) }
  | none => { c with sections :=
      c.sections ++ [sectionWrite b x (Int.tmod y 16) z (mkSection (Int.fdiv y 16))] }

/-- The state transform that `Region.setBlock` performs on its success
path (proved equal to it in `regionSetBlock_ok`). -/
def regionWrite (b : BlockObj) (x y z : Int) (r : RegionState) : RegionState :=
  { r with chunks := fun k =>
      if (k = chunkKey (Int.fdiv x 16) (Int.fdiv z 16)) then
        some (chunkWrite b (Int.tmod x 16) y (Int.tmod z 16)
          ((r.chunks (chunkKey (Int.fdiv x 16) (Int.fdiv z 16))).getD
            (mkChunk (Int.fdiv x 16) (Int.fdiv z 16))))
      else r.chunks k }

theorem tmod_bounds (a b : Int) (ha : 0 ≤ a) (hb : 0 < b) :
    0 ≤ Int.tmod a b ∧ Int.tmod a b < b := by
  rw [Int.tmod_eq_emod ha (by omega)]
  exact ⟨Int.emod_nonneg a (by omega), Int.emod_lt_of_pos a hb⟩

theorem sectionInsideB_iff (x y z : Int) :
    Section.insideB x y z = true
    ↔ (0 ≤ x ∧ x ≤ 15 ∧ 0 ≤ y ∧ y ≤ 15 ∧ 0 ≤ z ∧ z ≤ 15) := by
  unfold Section.insideB
  simp only [Bool.and_eq_true, decide_eq_true_eq, ge_iff_le]
  omega

theorem sectionSetBlock_ok (b : BlockObj) (x y z : Int) (s : SectionState)
    (hx : 0 ≤ x) (hx15 : x ≤ 15) (hy : 0 ≤ y) (hy15 : y ≤ 15)
    (hz : 0 ≤ z) (hz15 : z ≤ 15) :
    Section.setBlock b x y z s = .ok (sectionWrite b x y z s) := by
  unfold Section.setBlock sectionWrite
  rw [if_pos ((sectionInsideB_iff x y z).mpr ⟨hx, hx15, hy, hy15, hz, hz15⟩)]

theorem chunkSetBlock_ok (b : BlockObj) (x y z : Int) (c : ChunkState)
    (hx : 0 ≤ x) (hx15 : x ≤ 15) (hz : 0 ≤ z) (hz15 : z ≤ 15)
    (hy : 0 ≤ y) (hy255 : y ≤ 255) :
    Chunk.setBlock b x y z c = .ok (chunkWrite b x y z c) := by
  have hsy : 0 ≤ Int.fdiv y 16 ∧ Int.fdiv y 16 ≤ 15 := by
    rw [Int.fdiv_eq_ediv _ (by omega)]
    omega
  have htm : 0 ≤ Int.tmod y 16 ∧ Int.tmod y 16 < 16 := tmod_bounds y 16 hy (by omega)
  have hget : Chunk.getSection (Int.fdiv y 16) c
      = .ok (c.sections.find? (fun s => s.y == Int.fdiv y 16)) := by
    unfold Chunk.getSection
    rw [if_neg (by omega)]
  have hsw : ∀ s : SectionState, Section.setBlock b x (Int.tmod y 16) z s
      = Except.ok (sectionWrite b x (Int.tmod y 16) z s) := fun s =>
    sectionSetBlock_ok b x (Int.tmod y 16) z s hx hx15 htm.1 (by omega) hz hz15
  unfold Chunk.setBlock chunkWrite
  rw [if_neg (by omega), hget]
  simp only [hsw]
  cases hfind : c.sections.find? (fun s => s.y == Int.fdiv y 16) <;> rfl

theorem regionSetBlock_ok (b : BlockObj) (x y z : Int) (r : RegionState)
    (hx : 0 ≤ x) (hz : 0 ≤ z) (hy : 0 ≤ y) (hy255 : y ≤ 255)
    (hinx : Int.fdiv x 512 = r.x) (hinz : Int.fdiv z 512 = r.z) :
    Region.setBlock b x y z r = .ok (regionWrite b x y z r) := by
  have hins : Region.insideB r x y z false = true :=
    (insideB_block_iff r x y z).mpr ⟨hinx, hinz, hy, hy255⟩
  have hinsc : Region.insideB r (Int.fdiv x 16) 0 (Int.fdiv z 16) true = true := by
    refine (insideB_chunk_iff r _ _ _).mpr ⟨?_, ?_, by omega, by omega⟩
    · rw [fdiv_fdiv_16_32]
      exact hinx
    · rw [fdiv_fdiv_16_32]
      exact hinz
  have hgc : Region.getChunk (Int.fdiv x 16) (Int.fdiv z 16) r
      = r.chunks (chunkKey (Int.fdiv x 16) (Int.fdiv z 16)) := by
    unfold Region.getChunk
    rw [if_neg (by simp [hinsc])]
  have htmx : 0 ≤ Int.tmod x 16 ∧ Int.tmod x 16 < 16 := tmod_bounds x 16 hx (by omega)
  have htmz : 0 ≤ Int.tmod z 16 ∧ Int.tmod z 16 < 16 := tmod_bounds z 16 hz (by omega)
  have hcw : ∀ ch : ChunkState, Chunk.setBlock b (Int.tmod x 16) y (Int.tmod z 16) ch
      = Except.ok (chunkWrite b (Int.tmod x 16) y (Int.tmod z 16) ch) := fun ch =>
    chunkSetBlock_ok b (Int.tmod x 16) y (Int.tmod z 16) ch
      htmx.1 (by omega) htmz.1 (by omega) hy hy255
  unfold Region.setBlock regionWrite
  rw [if_neg (by simp [hins]), hgc]
  simp only [hcw]
  cases hch : r.chunks (chunkKey (Int.fdiv x 16) (Int.fdiv z 16)) with
  | some ch =>
    simp only [Option.getD_some]
  | none =>
    have hadd : Region.addChunk (mkChunk (Int.fdiv x 16) (Int.fdiv z 16)) r
        = .ok { r with chunks := fun k =>
            if (k = chunkKey (Int.fdiv x 16) (Int.fdiv z 16)) then
              (some (mkChunk (Int.fdiv x 16) (Int.fdiv z 16)))
            else r.chunks k } := by
      unfold Region.addChunk
      rw [if_neg (by simp [mkChunk, hinsc])]
      rfl
    rw [hadd]
    simp only [Option.getD_none]
    refine congrArg Except.ok (congrArg (RegionState.mk r.x r.z) (funext fun k => ?_))
    by_cases hk : k = chunkKey (Int.fdiv x 16) (Int.fdiv z 16) <;> simp [hk]

theorem sectionWrite_comm (b : BlockObj) (x1 y1 z1 x2 y2 z2 : Int) (s : SectionState) :
    sectionWrite b x1 y1 z1 (sectionWrite b x2 y2 z2 s)
      = sectionWrite b x2 y2 z2 (sectionWrite b x1 y1 z1 s) := by
  unfold sectionWrite
  by_cases hidx : (y2 * 256 + z2 * 16 + x2).toNat = (y1 * 256 + z1 * 16 + x1).toNat
  · simp only [hidx, List.set_set]
  · simp only [List.set_comm _ _ _ hidx]

theorem findIdx_set_of_find?_eq {α : Type} (p : α → Bool) (a x : α) :
    ∀ l : List α, l.find? p = some a → p x = true →
      (l.set (l.findIdx p) x).find? p = some x
      ∧ (l.set (l.findIdx p) x).findIdx p = l.findIdx p := by
  intro l
  induction l with
  | nil => intro hfind _; cases hfind
  | cons h t ih =>
    intro hfind hpx
    by_cases hp : p h = true
    · have hidx : (h :: t).findIdx p = 0 := by
        simp [List.findIdx_cons, hp]
      rw [hidx, List.set_cons_zero]
      refine ⟨List.find?_cons_of_pos _ hpx, ?_⟩
      simp [List.findIdx_cons, hpx]
    · rw [List.find?_cons_of_neg _ hp] at hfind
      have hidx : (h :: t).findIdx p = t.findIdx p + 1 := by
        simp [List.findIdx_cons, hp]
      obtain ⟨ih1, ih2⟩ := ih hfind hpx
      rw [hidx, List.set_cons_succ]
      refine ⟨?_, ?_⟩
      · rw [List.find?_cons_of_neg _ hp, ih1]
      · simp [List.findIdx_cons, hp, ih2]

theorem findIdx_append_of_none {α : Type} (p : α → Bool) (x : α) :
    ∀ l : List α, l.find? p = none → p x = true →
      (l ++ [x]).findIdx p = l.length := by
  intro l
  induction l with
  | nil => intro _ hpx; simp [List.findIdx_cons, hpx]
  | cons h t ih =>
    intro hnone hpx
    have hp : ¬ p h = true := by
      intro hp
      rw [List.find?_cons_of_pos _ hp] at hnone
      cases hnone
    rw [List.find?_cons_of_neg _ hp] at hnone
    rw [List.cons_append]
    simp [List.findIdx_cons, hp, ih hnone hpx]

theorem set_append_length {α : Type} (l : List α) (x y : α) :
    (l ++ [x]).set l.length y = l ++ [y] := by
  rw [List.set_append]
  rw [if_neg (by omega)]
  simp

theorem chunkWrite_comm (b : BlockObj) (x1 y1 z1 x2 y2 z2 : Int) (c : ChunkState)
    (hy : Int.fdiv y1 16 = Int.fdiv y2 16) :
    chunkWrite b x1 y1 z1 (chunkWrite b x2 y2 z2 c)
      = chunkWrite b x2 y2 z2 (chunkWrite b x1 y1 z1 c) := by
  unfold chunkWrite
  rw [hy]
  cases hfind : c.sections.find? (fun s => s.y == Int.fdiv y2 16) with
  | some sec =>
    simp only
    have hpsec : (sec.y == Int.fdiv y2 16) = true :=
      @List.find?_some _ (fun s : SectionState => s.y == Int.fdiv y2 16) sec c.sections hfind
    have hps1 : ((sectionWrite b x1 (Int.tmod y1 16) z1 sec).y == Int.fdiv y2 16) = true :=
      hpsec
    have hps2 : ((sectionWrite b x2 (Int.tmod y2 16) z2 sec).y == Int.fdiv y2 16) = true :=
      hpsec
    obtain ⟨hf1, hi1⟩ := findIdx_set_of_find?_eq _ sec _ c.sections hfind hps1
    obtain ⟨hf2, hi2⟩ := findIdx_set_of_find?_eq _ sec _ c.sections hfind hps2
    rw [hf1, hf2]
    simp only [hi1, hi2, List.set_set]
    rw [sectionWrite_comm]
  | none =>
    simp only
    have hps1 : ((sectionWrite b x1 (Int.tmod y1 16) z1
        (mkSection (Int.fdiv y2 16))).y == Int.fdiv y2 16) = true := by
      show (Int.fdiv y2 16 == Int.fdiv y2 16) = true
      exact beq_self_eq_true _
    have hps2 : ((sectionWrite b x2 (Int.tmod y2 16) z2
        (mkSection (Int.fdiv y2 16))).y == Int.fdiv y2 16) = true := by
      show (Int.fdiv y2 16 == Int.fdiv y2 16) = true
      exact beq_self_eq_true _
    have hfa1 : (c.sections ++ [sectionWrite b x1 (Int.tmod y1 16) z1
        (mkSection (Int.fdiv y2 16))]).find? (fun s => s.y == Int.fdiv y2 16)
        = some (sectionWrite b x1 (Int.tmod y1 16) z1 (mkSection (Int.fdiv y2 16))) := by
      rw [List.find?_append, hfind,
        @List.find?_cons_of_pos _ (fun s : SectionState => s.y == Int.fdiv y2 16) _ [] hps1]
      rfl
    have hfa2 : (c.sections ++ [sectionWrite b x2 (Int.tmod y2 16) z2
        (mkSection (Int.fdiv y2 16))]).find? (fun s => s.y == Int.fdiv y2 16)
        = some (sectionWrite b x2 (Int.tmod y2 16) z2 (mkSection (Int.fdiv y2 16))) := by
      rw [List.find?_append, hfind,
        @List.find?_cons_of_pos _ (fun s : SectionState => s.y == Int.fdiv y2 16) _ [] hps2]
      rfl
    rw [hfa1, hfa2]
    simp only
    rw [findIdx_append_of_none _ _ _ hfind hps1, findIdx_append_of_none _ _ _ hfind hps2,
      set_append_length, set_append_length]
    rw [sectionWrite_comm]

/-- Two good cells in the same 512-block window with the same chunk-array
key lie in the same chunk. -/
theorem chunkKey_inj (x1 z1 x2 z2 : Int) (hx1 : 0 ≤ x1) (hz1 : 0 ≤ z1)
    (hx2 : 0 ≤ x2) (hz2 : 0 ≤ z2)
    (hfx : Int.fdiv x1 512 = Int.fdiv x2 512) (hfz : Int.fdiv z1 512 = Int.fdiv z2 512)
    (hk : chunkKey (Int.fdiv x1 16) (Int.fdiv z1 16)
      = chunkKey (Int.fdiv x2 16) (Int.fdiv z2 16)) :
    Int.fdiv x1 16 = Int.fdiv x2 16 ∧ Int.fdiv z1 16 = Int.fdiv z2 16 := by
  unfold chunkKey at hk
  rw [Int.fdiv_eq_ediv _ (by omega), Int.fdiv_eq_ediv _ (by omega)] at hfx
  rw [Int.fdiv_eq_ediv _ (by omega), Int.fdiv_eq_ediv _ (by omega)] at hfz
  rw [Int.fdiv_eq_ediv _ (by omega), Int.fdiv_eq_ediv _ (by omega),
    Int.fdiv_eq_ediv _ (by omega), Int.fdiv_eq_ediv _ (by omega)] at hk ⊢
  rw [Int.tmod_eq_emod (Int.ediv_nonneg hz1 (by omega)) (by omega),
    Int.tmod_eq_emod (Int.ediv_nonneg hx1 (by omega)) (by omega),
    Int.tmod_eq_emod (Int.ediv_nonneg hz2 (by omega)) (by omega),
    Int.tmod_eq_emod (Int.ediv_nonneg hx2 (by omega)) (by omega)] at hk
  have c1 : x1 / 16 / 32 = x1 / 512 := by omega
  have c2 : x2 / 16 / 32 = x2 / 512 := by omega
  have c3 : z1 / 16 / 32 = z1 / 512 := by omega
  have c4 : z2 / 16 / 32 = z2 / 512 := by omega
  omega

theorem regionWrite_comm (b : BlockObj) (x1 y1 z1 x2 y2 z2 : Int) (r : RegionState)
    (hx1 : 0 ≤ x1) (hz1 : 0 ≤ z1) (hx2 : 0 ≤ x2) (hz2 : 0 ≤ z2)
    (hfx : Int.fdiv x1 512 = Int.fdiv x2 512) (hfz : Int.fdiv z1 512 = Int.fdiv z2 512)
    (hfy : Int.fdiv y1 16 = Int.fdiv y2 16) :
    regionWrite b x1 y1 z1 (regionWrite b x2 y2 z2 r)
      = regionWrite b x2 y2 z2 (regionWrite b x1 y1 z1 r) := by
  by_cases hk : chunkKey (Int.fdiv x1 16) (Int.fdiv z1 16)
      = chunkKey (Int.fdiv x2 16) (Int.fdiv z2 16)
  · obtain ⟨hcx, hcz⟩ := chunkKey_inj x1 z1 x2 z2 hx1 hz1 hx2 hz2 hfx hfz hk
    unfold regionWrite
    simp only [hcx, hcz]
    refine congrArg (RegionState.mk r.x r.z) (funext fun k => ?_)
    by_cases hkk : k = chunkKey (Int.fdiv x2 16) (Int.fdiv z2 16)
    · simp only [if_pos hkk, Option.getD_some]
      exact congrArg some (chunkWrite_comm b _ y1 _ _ y2 _ _ hfy)
    · simp only [if_neg hkk]
  · unfold regionWrite
    refine congrArg (RegionState.mk r.x r.z) (funext fun k => ?_)
    have hk2 : ¬ chunkKey (Int.fdiv x2 16) (Int.fdiv z2 16)
        = chunkKey (Int.fdiv x1 16) (Int.fdiv z1 16) := fun h => hk h.symm
    by_cases h1 : k = chunkKey (Int.fdiv x1 16) (Int.fdiv z1 16)
    · have h2 : ¬ k = chunkKey (Int.fdiv x2 16) (Int.fdiv z2 16) := by
        rw [h1]
        exact hk
      simp only [if_pos h1, if_neg h2, h1, if_neg hk2, if_neg hk]
    · by_cases h2 : k = chunkKey (Int.fdiv x2 16) (Int.fdiv z2 16)
      · simp only [if_pos h2, if_neg h1, h2, if_neg hk2, if_neg hk]
      · simp only [if_neg h1, if_neg h2]

theorem foldl_out_of_comm {α β : Type} (f : β → α → β) :
    ∀ (l : List α) (a : α) (s : β),
      (∀ x ∈ l, ∀ t, f (f t a) x = f (f t x) a) →
      f (l.foldl f s) a = l.foldl f (f s a) := by
  intro l
  induction l with
  | nil => intro a s _; rfl
  | cons c u ih =>
    intro a s h
    rw [List.foldl_cons, List.foldl_cons]
    rw [ih a (f s c) (fun x hx t => h x (List.mem_cons_of_mem _ hx) t)]
    rw [h c (List.mem_cons_self _ _) s]

theorem foldl_reverse_of_comm {α β : Type} (f : β → α → β) :
    ∀ (l : List α) (s : β),
      (∀ x ∈ l, ∀ y ∈ l, ∀ t, f (f t x) y = f (f t y) x) →
      l.reverse.foldl f s = l.foldl f s := by
  intro l
  induction l with
  | nil => intro s _; rfl
  | cons a u ih =>
    intro s h
    rw [List.reverse_cons, List.foldl_append, List.foldl_cons, List.foldl_nil]
    rw [ih s (fun x hx y hy t =>
      h x (List.mem_cons_of_mem _ hx) y (List.mem_cons_of_mem _ hy) t)]
    rw [foldl_out_of_comm f u a s (fun x hx t =>
      h a (List.mem_cons_self _ _) x (List.mem_cons_of_mem _ hx) t)]
    rw [List.foldl_cons]

/-- Under the goodness conditions, the `fill` loop body is the pure
`regionWrite` fold wrapped in `Except.ok`. -/
theorem foldlM_setBlock_ok (b : BlockObj) :
    ∀ (L : List (Int × Int × Int)) (s : RegionState),
      (∀ p ∈ L, 0 ≤ p.1 ∧ 0 ≤ p.2.2 ∧ 0 ≤ p.2.1 ∧ p.2.1 ≤ 255
        ∧ Int.fdiv p.1 512 = s.x ∧ Int.fdiv p.2.2 512 = s.z) →
      L.foldlM (fun s p => Region.setBlock b p.1 p.2.1 p.2.2 s) s
        = Except.ok (L.foldl (fun s p => regionWrite b p.1 p.2.1 p.2.2 s) s) := by
  intro L
  induction L with
  | nil => intro s _; rfl
  | cons p T ih =>
    intro s hgood
    obtain ⟨hp1, hp2, hp3, hp4, hp5, hp6⟩ := hgood p (List.mem_cons_self _ _)
    rw [List.foldlM_cons]
    rw [regionSetBlock_ok b p.1 p.2.1 p.2.2 s hp1 hp2 hp3 hp4 hp5 hp6]
    show T.foldlM _ (regionWrite b p.1 p.2.1 p.2.2 s) = _
    rw [ih (regionWrite b p.1 p.2.1 p.2.2 s)
      (fun q hq => hgood q (List.mem_cons_of_mem _ hq))]
    rw [List.foldl_cons]

/-- With `ignoreOutside = false` and corner checks passing, `fill` is the
plain `foldlM` of `setBlock` over the visited cells (the per-cell
`ignoreOutside` skip is dead). -/
theorem fill_false_eq_foldlM (b : BlockObj) (x1 y1 z1 x2 y2 z2 : Int) (r : RegionState)
    (h1 : Region.insideB r x1 y1 z1 false = true)
    (h2 : Region.insideB r x2 y2 z2 false = true) :
    Region.fill (BlockOrFn.block b) x1 y1 z1 x2 y2 z2 false r
      = (fillVisits x1 y1 z1 x2 y2 z2).foldlM
          (fun s p => Region.setBlock b p.1 p.2.1 p.2.2 s) r := by
  unfold Region.fill
  rw [if_neg (by simp [h1]), if_neg (by simp [h2])]
  have hfn : (fun (s : RegionState) (p : Int × Int × Int) =>
      if false && !(Region.insideB s p.1 p.2.1 p.2.2 false) then Except.ok s
      else Region.setBlock (evalB (BlockOrFn.block b) p.1 p.2.1 p.2.2) p.1 p.2.1 p.2.2 s)
      = (fun (s : RegionState) (p : Int × Int × Int) =>
          Region.setBlock b p.1 p.2.1 p.2.2 s) := by
    funext s p
    rw [if_neg (by simp)]
    rfl
  rw [hfn]

theorem fdiv_between (a b v d : Int) (hd : 0 < d) (hab : Int.fdiv a d = Int.fdiv b d)
    (h1 : min a b ≤ v) (h2 : v ≤ max a b) : Int.fdiv v d = Int.fdiv a d := by
  rw [Int.fdiv_eq_ediv _ (by omega), Int.fdiv_eq_ediv _ (by omega)] at hab
  rw [Int.fdiv_eq_ediv _ (by omega), Int.fdiv_eq_ediv _ (by omega)]
  rcases le_total a b with h | h
  · have e1 : a / d ≤ v / d := Int.ediv_le_ediv hd (by omega)
    have e2 : v / d ≤ b / d := Int.ediv_le_ediv hd (by omega)
    have e2a : v / d ≤ a / d := by
      rw [hab]
      exact e2
    exact le_antisymm e2a e1
  · have e1 : b / d ≤ v / d := Int.ediv_le_ediv hd (by omega)
    have e2 : v / d ≤ a / d := Int.ediv_le_ediv hd (by omega)
    have e1a : a / d ≤ v / d := by
      rw [hab]
      exact e1
    exact le_antisymm e2 e1a

/-- C7 amended: when both corners are inside the region, have nonnegative
x and z (the negative-remainder defect of C5/C6 aside), and lie in the
same vertical section layer (`floor(y1/16) = floor(y2/16)`), `fill`
visits exactly the inclusive cuboid spanned by the corners — the same
cell set as with swapped corners — and the swapped call produces the
identical final state.  (Without the same-layer condition the final
states can differ: the per-chunk section lists record creation order; see
the counterexample.) -/
theorem c7_fill_amended (b : BlockObj) (x1 y1 z1 x2 y2 z2 : Int) (r : RegionState)
    (h1 : Region.insideB r x1 y1 z1 false = true)
    (h2 : Region.insideB r x2 y2 z2 false = true)
    (hx1 : 0 ≤ x1) (hx2 : 0 ≤ x2) (hz1 : 0 ≤ z1) (hz2 : 0 ≤ z2)
    (hy : Int.fdiv y1 16 = Int.fdiv y2 16) :
    (∀ px py pz : Int, (px, py, pz) ∈ fillVisits x1 y1 z1 x2 y2 z2
      ↔ (min x1 x2 ≤ px ∧ px ≤ max x1 x2 ∧ min y1 y2 ≤ py ∧ py ≤ max y1 y2
          ∧ min z1 z2 ≤ pz ∧ pz ≤ max z1 z2))
    ∧ (∀ p : Int × Int × Int,
        p ∈ fillVisits x1 y1 z1 x2 y2 z2 ↔ p ∈ fillVisits x2 y2 z2 x1 y1 z1)
    ∧ Region.fill (BlockOrFn.block b) x1 y1 z1 x2 y2 z2 false r
      = Region.fill (BlockOrFn.block b) x2 y2 z2 x1 y1 z1 false r := by
  obtain ⟨hrx1, hrz1, hy1a, hy1b⟩ := (insideB_block_iff r x1 y1 z1).mp h1
  obtain ⟨hrx2, hrz2, hy2a, hy2b⟩ := (insideB_block_iff r x2 y2 z2).mp h2
  have hgood : ∀ p ∈ fillVisits x1 y1 z1 x2 y2 z2,
      0 ≤ p.1 ∧ 0 ≤ p.2.2 ∧ 0 ≤ p.2.1 ∧ p.2.1 ≤ 255
        ∧ Int.fdiv p.1 512 = r.x ∧ Int.fdiv p.2.2 512 = r.z := by
    intro p hp
    obtain ⟨ha1, ha2, hb1, hb2, hc1, hc2⟩ :=
      (mem_fillVisits x1 y1 z1 x2 y2 z2 p.1 p.2.1 p.2.2).mp hp
    refine ⟨by omega, by omega, by omega, by omega, ?_, ?_⟩
    · rw [fdiv_between x1 x2 p.1 512 (by omega) (hrx1.trans hrx2.symm) ha1 ha2]
      exact hrx1
    · rw [fdiv_between z1 z2 p.2.2 512 (by omega) (hrz1.trans hrz2.symm) hc1 hc2]
      exact hrz1
  have hlayer : ∀ p ∈ fillVisits x1 y1 z1 x2 y2 z2,
      Int.fdiv p.2.1 16 = Int.fdiv y1 16 := by
    intro p hp
    obtain ⟨ha1, ha2, hb1, hb2, hc1, hc2⟩ :=
      (mem_fillVisits x1 y1 z1 x2 y2 z2 p.1 p.2.1 p.2.2).mp hp
    exact fdiv_between y1 y2 p.2.1 16 (by omega) hy hb1 hb2
  refine ⟨fun px py pz => mem_fillVisits x1 y1 z1 x2 y2 z2 px py pz, ?_, ?_⟩
  · intro p
    rw [fillVisits_swap, List.mem_reverse]
  · rw [fill_false_eq_foldlM b x1 y1 z1 x2 y2 z2 r h1 h2,
      fill_false_eq_foldlM b x2 y2 z2 x1 y1 z1 r h2 h1]
    have hgood2 : ∀ p ∈ fillVisits x2 y2 z2 x1 y1 z1,
        0 ≤ p.1 ∧ 0 ≤ p.2.2 ∧ 0 ≤ p.2.1 ∧ p.2.1 ≤ 255
          ∧ Int.fdiv p.1 512 = r.x ∧ Int.fdiv p.2.2 512 = r.z := by
      intro p hp
      refine hgood p ?_
      rw [fillVisits_swap] at hp
      exact List.mem_reverse.mp hp
    rw [foldlM_setBlock_ok b _ r hgood, foldlM_setBlock_ok b _ r hgood2]
    refine congrArg Except.ok ?_
    rw [fillVisits_swap x1 y1 z1 x2 y2 z2]
    refine (foldl_reverse_of_comm _ _ r ?_).symm
    intro p hp q hq t
    obtain ⟨hp1, hp2, hp3, hp4, hp5, hp6⟩ := hgood p hp
    obtain ⟨hq1, hq2, hq3, hq4, hq5, hq6⟩ := hgood q hq
    exact regionWrite_comm b q.1 q.2.1 q.2.2 p.1 p.2.1 p.2.2 t hq1 hq2 hp1 hp2
      (hq5.trans hp5.symm) (hq6.trans hp6.symm)
      ((hlayer q hq).trans (hlayer p hp).symm)

/-- C7 amended, witness: corners (2,2,2) and (5,5,5) on a fresh region
(0,0) — the spec's own 64-cell example. -/
theorem c7_fill_amended_witness :
    Region.insideB (mkRegion 0 0) 2 2 2 false = true
    ∧ Region.insideB (mkRegion 0 0) 5 5 5 false = true
    ∧ Int.fdiv 2 16 = Int.fdiv 5 16
    ∧ Region.fill (BlockOrFn.block blkA) 2 2 2 5 5 5 false (mkRegion 0 0)
      = Region.fill (BlockOrFn.block blkA) 5 5 5 2 2 2 false (mkRegion 0 0) :=
  ⟨by decide, by decide, by decide,
    (c7_fill_amended blkA 2 2 2 5 5 5 (mkRegion 0 0) (by decide) (by decide)
      (by omega) (by omega) (by omega) (by omega) (by decide)).2.2⟩

/-- C7 is false as stated: filling (0,0,0)–(0,16,0) and its swapped call
on a fresh region (0,0) end in different states — the forward call
creates the y=0 section before the y=1 section, the reversed call the
other way around, and `chunk.sections` records that order (so `save()`
would emit the sections in different order). -/
theorem c7_fill_counterexample :
    Region.insideB (mkRegion 0 0) 0 0 0 false = true
    ∧ Region.insideB (mkRegion 0 0) 0 16 0 false = true
    ∧ Region.fill (BlockOrFn.block blkA) 0 0 0 0 16 0 false (mkRegion 0 0)
      ≠ Region.fill (BlockOrFn.block blkA) 0 16 0 0 0 0 false (mkRegion 0 0) := by
  refine ⟨by decide, by decide, ?_⟩
  intro heq
  have hy := congrArg (fun e : Except String RegionState =>
    (match e with
     | Except.ok s =>
       (match s.chunks 0 with
        | some c => c.sections.map (fun sec : SectionState => sec.y)
        | none => [])
     | Except.error _ => ([] : List Int))) heq
  have hL : (fun e : Except String RegionState =>
      (match e with
       | Except.ok s =>
         (match s.chunks 0 with
          | some c => c.sections.map (fun sec : SectionState => sec.y)
          | none => [])
       | Except.error _ => ([] : List Int)))
      (Region.fill (BlockOrFn.block blkA) 0 0 0 0 16 0 false (mkRegion 0 0))
      = ([0, 1] : List Int) := rfl
  have hR : (fun e : Except String RegionState =>
      (match e with
       | Except.ok s =>
         (match s.chunks 0 with
          | some c => c.sections.map (fun sec : SectionState => sec.y)
          | none => [])
       | Except.error _ => ([] : List Int)))
      (Region.fill (BlockOrFn.block blkA) 0 16 0 0 0 0 false (mkRegion 0 0))
      = ([1, 0] : List Int) := rfl
  rw [hL, hR] at hy
  exact absurd hy (by decide)

/-! ### Claim C1: the region-file byte layout for a single populated chunk -/

/-- One palette entry of the section tag tree (lines 128-136): the
block's name, plus its stringified property map when non-empty.
Property values are strings in this model, so the source's
`.toString()` is the identity. -/
structure PaletteEntryNBT where
  nm : String
  properties : Option (List (String × String))
deriving DecidableEq, Repr

/-- The record returned by `Section.save` (lines 139-143).  `BlockStates`
holds the words after the `BigInt64Array` conversion, which keeps the low
64 bits of each packed value. -/
structure SectionNBT where
  yIndex : Int
  paletteTags : List PaletteEntryNBT
  blockStates : List Nat
deriving DecidableEq, Repr

/-- `Section.save` (lines 124-144): palette tags plus the packed words;
`none` models the (unreachable for valid grids) throwing paths of
`blockstates`. -/
def Section.save (s : SectionState) : Option SectionNBT :=
  let palette := Section.palette s
  let pal := palette.map (fun block =>
    ({ nm := block.name
       properties := if block.props.length ≠ 0 then some block.props else none } :
      PaletteEntryNBT))
  match Section.blockstates s none with
  | none => none
  | some ws => some
      { yIndex := s.y
        paletteTags := pal
        blockStates := ws.map (fun w => w % 2 ^ 64) }

/-- The record returned by `Chunk.save` (lines 215-224). -/
structure ChunkNBT where
  dataVersion : Int
  xPos : Int
  zPos : Int
  status : String
  isLightOn : Int
  sectionTags : List SectionNBT
deriving DecidableEq, Repr

/-- `Chunk.save` (lines 208-225): render the stored sections in order,
skipping any whose palette is exactly one entry named `minecraft:air`. -/
def Chunk.save (c : ChunkState) : Option ChunkNBT :=
  match (c.sections.filter (fun s =>
      match Section.palette s with
      | [b] => !(b.name == "minecraft:air")
      | _ => true)).mapM Section.save with
  | none => none
  | some secs => some
      { dataVersion := c.version, xPos := c.x, zPos := c.z, status := "full"
        isLightOn := 1, sectionTags := secs }

/-- Big-endian byte list of `v` in `n` bytes, as written by
`Buffer.writeIntBE` for in-range nonnegative values. -/
def beBytes (n v : Nat) : List Nat :=
  (List.range n).map (fun i => v / 256 ^ (n - 1 - i) % 256)

/-- An all-zero byte list (`Buffer.alloc`). -/
def zeros (n : Nat) : List Nat :=
  List.replicate n 0

/-- One iteration of the record-building pass of `Region.save`
(lines 342-361): a null entry only records a null offset; a chunk entry
records (sector offset, sector count), advances the running total by the
4096-padded record length, and emits the record buffer
`[4-byte BE (payload+1)] [tag 2] [payload] [zero padding]`. -/
def saveStep (acc : List (Option (Nat × Nat)) × Nat × List (List Nat))
    (od : Option (List Nat)) : List (Option (Nat × Nat)) × Nat × List (List Nat) :=
  match od with
  | none => (acc.1 ++ [none], acc.2.1, acc.2.2)
  | some data =>
    (acc.1 ++ [some (acc.2.1 / 4096, (4 + 1 + data.length + 4095) / 4096)],
     acc.2.1 + (if (4 + 1 + data.length) % 4096 ≠ 0 then
        4 + 1 + data.length + (4096 - (4 + 1 + data.length) % 4096)
      else 4 + 1 + data.length),
     acc.2.2 ++ [beBytes 4 (data.length + 1) ++ [2] ++ data
      ++ zeros ((if (4 + 1 + data.length) % 4096 ≠ 0 then
          4 + 1 + data.length + (4096 - (4 + 1 + data.length) % 4096)
        else 4 + 1 + data.length) - (4 + 1 + data.length))])

/-- The assembly pass of `Region.save` (lines 340-374), taking the
per-chunk compressed payloads (null for absent chunks): location header,
zero timestamp header, then the concatenated padded records. -/
def saveFromChunksData (chunksData : List (Option (List Nat))) : List Nat :=
  let res := chunksData.foldl saveStep ([], 0, [])
  let chunksBuffer := res.2.2.flatten
  let locationsHeader := (res.1.map (fun off =>
    match off with
    | some (o0, o1) => beBytes 3 (o0 + 2) ++ beBytes 1 o1
    | none => zeros 4)).flatten
  locationsHeader ++ zeros 4096 ++ chunksBuffer

/-- The compressed-payload pass of `Region.save` (lines 330-339),
with the external tag-tree encoder `enc` and deflate compressor `defl`
as parameters (spec §6); `for (chunk of this.chunks)` iterates the 1024
array slots in index order. -/
def chunksDataOf (enc : ChunkNBT → List Nat) (defl : List Nat → List Nat)
    (r : RegionState) : Option (List (Option (List Nat))) :=
  (List.range 1024).mapM (fun (i : Nat) =>
    match r.chunks (i : Int) with
    | none => some none
    | some c => (Chunk.save c).map (fun t => some (defl (enc t))))

/-- `Region.save` (lines 329-385), in-memory variant: build the per-chunk
payloads, then assemble the file bytes. -/
def Region.save (enc : ChunkNBT → List Nat) (defl : List Nat → List Nat)
    (r : RegionState) : Option (List Nat) :=
  (chunksDataOf enc defl r).map saveFromChunksData

theorem mapM_eq_map_of_some {α β : Type} (f : α → Option β) (g : α → β) :
    ∀ l : List α, (∀ a ∈ l, f a = some (g a)) → l.mapM f = some (l.map g) := by
  intro l
  induction l with
  | nil => intro _; rfl
  | cons a t ih =>
    intro h
    rw [List.mapM_cons, h a (List.mem_cons_self _ _),
      ih (fun x hx => h x (List.mem_cons_of_mem _ hx))]
    rfl

theorem range_map_single {α : Type} (A B : α) :
    ∀ (n i : Nat), i < n →
      (List.range n).map (fun j => if j = i then A else B)
        = List.replicate i B ++ A :: List.replicate (n - i - 1) B := by
  intro n
  induction n with
  | zero => intro i hi; omega
  | succ n ih =>
    intro i hi
    rw [List.range_succ_eq_map, List.map_cons, List.map_map]
    cases i with
    | zero =>
      rw [if_pos rfl]
      have hconst : (List.map ((fun j => if j = 0 then A else B) ∘ Nat.succ)
          (List.range n)) = List.replicate n B := by
        refine List.eq_replicate_iff.mpr ⟨by simp, ?_⟩
        intro b hb
        obtain ⟨j, _, hj⟩ := List.mem_map.mp hb
        simpa using hj.symm
      rw [hconst]
      simp
    | succ k =>
      rw [if_neg (by omega)]
      have hfun : ((fun j => if j = k + 1 then A else B) ∘ Nat.succ)
          = (fun j => if j = k then A else B) := by
        funext j
        by_cases h : j = k <;> simp [h]
      rw [hfun, ih k (by omega)]
      simp only [List.replicate_succ, List.cons_append]
      have : n + 1 - (k + 1) - 1 = n - k - 1 := by omega
      rw [this]

theorem saveStep_replicate_none :
    ∀ (n : Nat) (acc : List (Option (Nat × Nat)) × Nat × List (List Nat)),
      (List.replicate n (none : Option (List Nat))).foldl saveStep acc
        = (acc.1 ++ List.replicate n none, acc.2.1, acc.2.2) := by
  intro n
  induction n with
  | zero => intro acc; simp
  | succ n ih =>
    intro acc
    rw [List.replicate_succ, List.foldl_cons, ih]
    show (acc.1 ++ [none] ++ List.replicate n none, acc.2.1, acc.2.2) = _
    rw [List.append_assoc, List.singleton_append, ← List.replicate_succ]

theorem flatten_replicate_zeros (n : Nat) :
    (List.replicate n (zeros 4)).flatten = zeros (4 * n) := by
  induction n with
  | zero => rfl
  | succ n ih =>
    rw [List.replicate_succ, List.flatten_cons, ih]
    show zeros 4 ++ zeros (4 * n) = zeros (4 * (n + 1))
    unfold zeros
    rw [← List.replicate_add]
    congr 1
    omega

theorem saveFromChunksData_single (i : Nat) (p : List Nat) (_hi : i ≤ 1023)
    (hq : (5 + p.length + 4095) / 4096 < 256) :
    saveFromChunksData
        (List.replicate i none ++ some p :: List.replicate (1023 - i) none)
      = zeros (4 * i) ++ [0, 0, 2, (5 + p.length + 4095) / 4096]
        ++ zeros (4 * (1023 - i)) ++ zeros 4096
        ++ (beBytes 4 (p.length + 1) ++ [2] ++ p
            ++ zeros (4096 * ((5 + p.length + 4095) / 4096) - (5 + p.length))) := by
  have hpad : (if (4 + 1 + p.length) % 4096 ≠ 0 then
      4 + 1 + p.length + (4096 - (4 + 1 + p.length) % 4096)
    else 4 + 1 + p.length) = 4096 * ((5 + p.length + 4095) / 4096) := by
    by_cases h : (4 + 1 + p.length) % 4096 = 0 <;> simp [h] <;> omega
  unfold saveFromChunksData
  rw [List.foldl_append, saveStep_replicate_none, List.foldl_cons]
  have hstep : saveStep (([] : List (Option (Nat × Nat))) ++ List.replicate i none, 0,
      ([] : List (List Nat))) (some p)
      = (List.replicate i none ++ [some (0, (5 + p.length + 4095) / 4096)],
         4096 * ((5 + p.length + 4095) / 4096),
         [beBytes 4 (p.length + 1) ++ [2] ++ p
          ++ zeros (4096 * ((5 + p.length + 4095) / 4096) - (5 + p.length))]) := by
    unfold saveStep
    simp only [List.nil_append]
    rw [hpad]
    norm_num
  rw [hstep, saveStep_replicate_none]
  have hbe3 : beBytes 3 (0 + 2) = [0, 0, 2] := by decide
  have hbe1 : beBytes 1 ((5 + p.length + 4095) / 4096)
      = [(5 + p.length + 4095) / 4096] := by
    have h0 : beBytes 1 ((5 + p.length + 4095) / 4096)
        = [(5 + p.length + 4095) / 4096 / 1 % 256] := rfl
    rw [h0, Nat.div_one, Nat.mod_eq_of_lt hq]
  simp only [List.map_append, List.map_replicate, List.map_cons, List.map_nil,
    List.flatten_append, flatten_replicate_zeros, List.flatten_cons, List.flatten_nil,
    List.append_nil, hbe3, hbe1]
  simp [List.append_assoc]

/-- C1: for a Region with exactly one populated chunk (at array index i,
with compressed payload `defl (enc t)` of moderate size), `save()`
produces: a location table that is zero except for the chunk's 4-byte
entry `[0, 0, 2, sectorCount]` (3-byte big-endian offset 2, 1-byte
sector count = ceil(record length / 4096)); 4096 zero timestamp bytes;
then, at byte 8192, the record `[4-byte BE (payload+1)] [tag 2] [payload]
[zero padding]`; total length 8192 + the record length rounded up to a
multiple of 4096. -/
theorem c1_save_single_chunk (enc : ChunkNBT → List Nat) (defl : List Nat → List Nat)
    (r : RegionState) (i : Nat) (c : ChunkState) (t : ChunkNBT)
    (hi : i ≤ 1023) (hc : r.chunks (i : Int) = some c)
    (hothers : ∀ j : Nat, j ≤ 1023 → j ≠ i → r.chunks (j : Int) = none)
    (ht : Chunk.save c = some t)
    (hsize : 5 + (defl (enc t)).length ≤ 127 * 4096) :
    ∃ out, Region.save enc defl r = some out
      ∧ out = zeros (4 * i)
          ++ [0, 0, 2, (5 + (defl (enc t)).length + 4095) / 4096]
          ++ zeros (4 * (1023 - i)) ++ zeros 4096
          ++ (beBytes 4 ((defl (enc t)).length + 1) ++ [2] ++ defl (enc t)
              ++ zeros (4096 * ((5 + (defl (enc t)).length + 4095) / 4096)
                  - (5 + (defl (enc t)).length)))
      ∧ out.length = 8192 + 4096 * ((5 + (defl (enc t)).length + 4095) / 4096) := by
  have hq : (5 + (defl (enc t)).length + 4095) / 4096 < 256 := by omega
  have hcd : chunksDataOf enc defl r
      = some (List.replicate i none ++ some (defl (enc t))
          :: List.replicate (1023 - i) none) := by
    unfold chunksDataOf
    rw [mapM_eq_map_of_some _
      (fun j => if j = i then some (defl (enc t)) else none) _ ?_]
    · rw [range_map_single (some (defl (enc t))) none 1024 i (by omega)]
      have h1023 : 1024 - i - 1 = 1023 - i := by omega
      rw [h1023]
    · intro j hj
      rw [List.mem_range] at hj
      by_cases hji : j = i
      · subst hji
        rw [hc]
        show Option.map (fun t => some (defl (enc t))) (Chunk.save c)
          = some (if j = j then some (defl (enc t)) else none)
        rw [ht, if_pos rfl]
        rfl
      · rw [hothers j (by omega) hji]
        show some none = some (if j = i then some (defl (enc t)) else none)
        rw [if_neg hji]
  unfold Region.save
  rw [hcd]
  refine ⟨_, rfl, ?_, ?_⟩
  · exact saveFromChunksData_single i (defl (enc t)) hi hq
  · rw [saveFromChunksData_single i (defl (enc t)) hi hq]
    simp only [List.length_append, List.length_cons, List.length_nil, zeros,
      List.length_replicate, beBytes, List.length_map, List.length_range]
    omega

/-- C1 witness: a region at (0,0) whose only chunk sits at index 0 with
no sections, a 3-byte payload, hence a single 4096-byte record. -/
theorem c1_save_single_chunk_witness :
    (⟨0, 0, fun k => if k = 0 then some (mkChunk 0 0) else none⟩ :
        RegionState).chunks ((0 : Nat) : Int) = some (mkChunk 0 0)
    ∧ Chunk.save (mkChunk 0 0) = some
        { dataVersion := 1976, xPos := 0, zPos := 0, status := "full"
          isLightOn := 1, sectionTags := [] }
    ∧ ∃ out, Region.save (fun _ => [1, 2, 3]) (fun l => l)
        (⟨0, 0, fun k => if k = 0 then some (mkChunk 0 0) else none⟩ : RegionState)
        = some out
      ∧ out = zeros (4 * 0)
          ++ [0, 0, 2, (5 + ([1, 2, 3] : List Nat).length + 4095) / 4096]
          ++ zeros (4 * (1023 - 0)) ++ zeros 4096
          ++ (beBytes 4 (([1, 2, 3] : List Nat).length + 1) ++ [2] ++ [1, 2, 3]
              ++ zeros (4096 * ((5 + ([1, 2, 3] : List Nat).length + 4095) / 4096)
                  - (5 + ([1, 2, 3] : List Nat).length)))
      ∧ out.length = 8192 + 4096 * ((5 + ([1, 2, 3] : List Nat).length + 4095) / 4096) := by
  refine ⟨rfl, rfl, ?_⟩
  exact c1_save_single_chunk (fun _ => [1, 2, 3]) (fun l => l)
    ⟨0, 0, fun k => if k = 0 then some (mkChunk 0 0) else none⟩ 0 (mkChunk 0 0)
    { dataVersion := 1976, xPos := 0, zPos := 0, status := "full"
      isLightOn := 1, sectionTags := [] }
    (by omega) rfl
    (fun j _ hj => if_neg (by exact_mod_cast hj))
    rfl (by norm_num)

/-! ### Claim C8: error surfacing of the file-writing save variant -/

/-- The possible final outcomes of `save(file)`'s asynchronous part, per
JS promise semantics: the returned promise resolves with the buffer,
or rejects with an error (observable via `.catch`/`await`), or an
exception is thrown inside the detached `fs.writeFile` callback — after
the promise executor has already returned — which never settles the
promise and is unobservable to the caller. -/
inductive SaveFileOutcome where
  | resolved (bytes : List Nat)
  | rejected (err : String)
  | thrownInCallback (err : String)
deriving DecidableEq, Repr

/-- `Region.save(file)` (lines 375-381): the executor calls
`fs.writeFile(file, final, err => { if (err) throw err; resolve(final) })`
and never calls `reject`.  `writeResult` is the error the filesystem
reports (`none` for success).  On success the callback resolves the
promise with the buffer; on failure the `throw err` happens inside the
detached callback, so the model can never produce `.rejected`. -/
def Region.saveToFile (enc : ChunkNBT → List Nat) (defl : List Nat → List Nat)
    (writeResult : Option String) (r : RegionState) : Option SaveFileOutcome :=
  (Region.save enc defl r).map (fun final =>
    match writeResult with
    | some err => SaveFileOutcome.thrownInCallback err
    | none => SaveFileOutcome.resolved final)

set_option maxRecDepth 400000 in
/-- C8 fails on the code: when the filesystem reports an error, the
error is thrown inside the detached `fs.writeFile` callback (no `reject`
exists in the executor), not delivered through the returned promise —
evaluated here on an empty region with a failing write. -/
theorem c8_savefile_detached_error :
    Region.saveToFile (fun _ => []) (fun l => l) (some ("EACCES")) (mkRegion 0 0)
      = some (SaveFileOutcome.thrownInCallback ("EACCES"))
    ∧ SaveFileOutcome.thrownInCallback ("EACCES")
      ≠ SaveFileOutcome.rejected ("EACCES") := by
  constructor
  · rfl
  · decide

/-! ### Claim C10: `save()` mutates nothing and is repeatable -/

/-- State-passing rendition of the in-memory `Region.save` (lines
329-385) for the frame property: the method body assigns only to local
variables, never to `this` or any reachable chunk or section (see the
translations of `Region.save`, `Chunk.save`, `Section.save` above, none
of which takes or produces a state), so the post-state rebuilds the
receiver's fields unchanged and the bytes are a function of the state
alone. -/
def Region.saveT (enc : ChunkNBT → List Nat) (defl : List Nat → List Nat)
    (r : RegionState) : RegionState × Option (List Nat) :=
  (⟨r.x, r.z, r.chunks⟩, Region.save enc defl r)

/-- C10: `save()` is a pure observer — the region (its chunk grid, hence
every chunk's section list and every section's block grid) is unchanged,
and a second `save()` on the resulting state returns the identical
bytes. -/
theorem c10_save_pure (enc : ChunkNBT → List Nat) (defl : List Nat → List Nat)
    (r : RegionState) :
    (Region.saveT enc defl r).1 = r
    ∧ (Region.saveT enc defl (Region.saveT enc defl r).1).2
      = (Region.saveT enc defl r).2 := by
  exact ⟨rfl, rfl⟩

end Anvil
